import Mathlib

/-!
# CMVision region extraction: data structures and range-sum utilities

A shallow embedding of `src/shared/cmvision/cmvision_region.h`:

* the arenas `RunList` and `RegionList` (capacity and used count),
* the intrusive singly linked list `RegionLinkedList` over `Region` entries and the
  per-colour bucket array `ColorRegionList`,
* the closed forms `CMVisionRegion::rangeSum` and `CMVisionRegion::rangeSumSq`, over
  unbounded integers, over 32-bit integers with an overflow check at every step, and
  over 32-bit integers with two's-complement wraparound,
* the accessors `Region::width` and `Region::height`, in 32-bit arithmetic,
* the colour partitioner `separateRegions` and the region sorter
  `sortRegionListByArea`, of which the header holds the declarations only: their
  bodies follow the specification of the components (sections 4.4 and 4.5).

C++ `int` values are integers (`Int`), with the reduction modulo 2^32 written out
where a result can leave the 32-bit range; a `Region *` is `Option Nat`, with `none`
the null pointer and `some a` the region stored at address `a`; the regions
themselves live in a heap, a map from addresses to `Region` values.
-/

namespace CMVision

/-- Modelled from the spec: the type `raw8` of `colors.h`, which is not part of the
sources at hand; the spec describes it as a small-integer colour-class label. -/
abbrev raw8 := Nat

/-- Class `Run`: location and width of a run, its colour, and the parent / next links
(arena indices). -/
structure Run where
  x : Int
  y : Int
  width : Int
  color : raw8
  parent : Int
  next : Int

/-- Pointer to a `Region`: `none` is the null pointer. -/
abbrev RegionPtr := Option Nat

/-- Class `Region`, field by field. -/
structure Region where
  color : raw8
  x1 : Int
  y1 : Int
  x2 : Int
  y2 : Int
  cen_x : Float
  cen_y : Float
  area : Int
  run_start : Int
  iterator_id : Int
  next : RegionPtr
  tree_next : RegionPtr

/-- The memory holding the `Region` objects, by address. -/
abbrev Heap := Nat → Region

/-! ### RunList -/

/-- Class `RunList`: the run array, its capacity and the used count. -/
structure RunList where
  runs : List Run
  max_runs : Int
  used_runs : Int

/-- Constructor `RunList(int _max_runs)`. The array `new Run[_max_runs]` is not
initialised: `fresh` gives the indeterminate contents of the new storage. A negative
size makes `new[]` fail. -/
def RunList.construct (_max_runs : Int) (fresh : Nat → Run) : Option RunList :=
  if _max_runs < 0 then none
  else some
    { runs := (List.range _max_runs.toNat).map fresh
      max_runs := _max_runs
      used_runs := 0 }

def RunList.setUsedRuns (l : RunList) (runs : Int) : RunList :=
  { l with used_runs := runs }

def RunList.getUsedRuns (l : RunList) : Int := l.used_runs

def RunList.getRunArrayPointer (l : RunList) : List Run := l.runs

def RunList.getMaxRuns (l : RunList) : Int := l.max_runs

/-- The public operations of `RunList`. -/
inductive RunListOp where
  | setUsedRuns (runs : Int)
  | getUsedRuns
  | getMaxRuns
  | getRunArrayPointer

/-- Effect of one public operation on the object; the three getters only read. -/
def RunList.step (l : RunList) : RunListOp → RunList
  | .setUsedRuns k => l.setUsedRuns k
  | .getUsedRuns => l
  | .getMaxRuns => l
  | .getRunArrayPointer => l

/-- Effect of a sequence of public operations, first to last. -/
def RunList.exec (l : RunList) (ops : List RunListOp) : RunList :=
  ops.foldl RunList.step l

/-- The arena invariant of the spec: `0 ≤ used ≤ capacity`. -/
def RunList.arenaInv (l : RunList) : Prop :=
  0 ≤ l.getUsedRuns ∧ l.getUsedRuns ≤ l.getMaxRuns

/-! ### RegionList -/

/-- Class `RegionList`: the region array, its capacity and the used count. -/
structure RegionList where
  regions : List Region
  max_regions : Int
  used_regions : Int

/-- Constructor `RegionList(int _max_regions)`; `fresh` gives the indeterminate
contents of `new Region[_max_regions]`, which fails on a negative size. -/
def RegionList.construct (_max_regions : Int) (fresh : Nat → Region) : Option RegionList :=
  if _max_regions < 0 then none
  else some
    { regions := (List.range _max_regions.toNat).map fresh
      max_regions := _max_regions
      used_regions := 0 }

def RegionList.setUsedRegions (l : RegionList) (regions : Int) : RegionList :=
  { l with used_regions := regions }

def RegionList.getUsedRegions (l : RegionList) : Int := l.used_regions

def RegionList.getRegionArrayPointer (l : RegionList) : List Region := l.regions

def RegionList.getMaxRegions (l : RegionList) : Int := l.max_regions

/-- The public operations of `RegionList`. -/
inductive RegionListOp where
  | setUsedRegions (regions : Int)
  | getUsedRegions
  | getMaxRegions
  | getRegionArrayPointer

/-- Effect of one public operation on the object; the three getters only read. -/
def RegionList.step (l : RegionList) : RegionListOp → RegionList
  | .setUsedRegions k => l.setUsedRegions k
  | .getUsedRegions => l
  | .getMaxRegions => l
  | .getRegionArrayPointer => l

/-- Effect of a sequence of public operations, first to last. -/
def RegionList.exec (l : RegionList) (ops : List RegionListOp) : RegionList :=
  ops.foldl RegionList.step l

/-- The arena invariant of the spec: `0 ≤ used ≤ capacity`. -/
def RegionList.arenaInv (l : RegionList) : Prop :=
  0 ≤ l.getUsedRegions ∧ l.getUsedRegions ≤ l.getMaxRegions

/-! ### RegionLinkedList -/

/-- Class `RegionLinkedList`: pointer to the first element and the element count. -/
structure RegionLinkedList where
  _first : RegionPtr
  _num : Int

def RegionLinkedList.getInitialElement (l : RegionLinkedList) : RegionPtr := l._first

def RegionLinkedList.getNumRegions (l : RegionLinkedList) : Int := l._num

def RegionLinkedList.setFront (l : RegionLinkedList) (r : RegionPtr) : RegionLinkedList :=
  { l with _first := r }

def RegionLinkedList.setNum (l : RegionLinkedList) (num : Int) : RegionLinkedList :=
  { l with _num := num }

/-- Method `reset()`: `_first=0; _num=0;`. -/
def RegionLinkedList.reset (_l : RegionLinkedList) : RegionLinkedList :=
  { _first := none, _num := 0 }

/-- Constructor `RegionLinkedList()`: calls `reset()` on the uninitialised object
`fresh`. -/
def RegionLinkedList.construct (fresh : RegionLinkedList) : RegionLinkedList :=
  fresh.reset

/-- Method `insertFront(Region * r)`: `r->next=_first; _first=r; _num++;`. The region
is dereferenced, so `r` is the address of a region (not null). The store goes to the
heap, the other two assignments to the list object. Here the counter is incremented
over the integers, which is what `_num++` does as long as the count is below
`2^31 - 1`; `insertFront32` below is the same method with the 32-bit counter. -/
def RegionLinkedList.insertFront (l : RegionLinkedList) (h : Heap) (r : Nat) :
    Heap × RegionLinkedList :=
  (Function.update h r { h r with next := l._first },
   { _first := some r, _num := l._num + 1 })

/-- The calls `insertFront(r1); ...; insertFront(rn)` in that order. -/
def RegionLinkedList.insertAll (l : RegionLinkedList) (h : Heap) :
    List Nat → Heap × RegionLinkedList
  | [] => (h, l)
  | r :: rs => RegionLinkedList.insertAll (l.insertFront h r).2 (l.insertFront h r).1 rs

/-- Traversal `for (p = start; p != 0; p = p->next)`, at most `fuel` steps: the
addresses visited, in order, or `none` when null is not reached within `fuel` steps. -/
def traverse (h : Heap) : Nat → RegionPtr → Option (List Nat)
  | _, none => some []
  | 0, some _ => none
  | fuel + 1, some a => (traverse h fuel (h a).next).map (fun cs => a :: cs)

/-! ### ColorRegionList -/

/-- Class `ColorRegionList`: the bucket array and its size. -/
structure ColorRegionList where
  color_regions : List RegionLinkedList
  num_color_regions : Int

/-- Constructor `ColorRegionList(int _num_color_regions)`: `new RegionLinkedList[n]`
runs the `RegionLinkedList` constructor on each element (`fresh i` is the
indeterminate storage of element `i`) and fails on a negative size. -/
def ColorRegionList.construct (_num_color_regions : Int) (fresh : Nat → RegionLinkedList) :
    Option ColorRegionList :=
  if _num_color_regions < 0 then none
  else some
    { color_regions :=
        (List.range _num_color_regions.toNat).map (fun i => (fresh i).construct)
      num_color_regions := _num_color_regions }

def ColorRegionList.getColorRegionArrayPointer (c : ColorRegionList) :
    List RegionLinkedList := c.color_regions

def ColorRegionList.getNumColorRegions (c : ColorRegionList) : Int := c.num_color_regions

end CMVision

namespace CMVisionRegion

/-- Least value of a 32-bit `int`. -/
def INT_MIN : Int := -2147483648

/-- Greatest value of a 32-bit `int`. -/
def INT_MAX : Int := 2147483647

/-- The value is representable as a 32-bit `int`. -/
def inInt (v : Int) : Prop := INT_MIN ≤ v ∧ v ≤ INT_MAX

instance (v : Int) : Decidable (inInt v) := by unfold inInt; infer_instance

/-- Two's-complement wraparound of an integer to 32 bits. -/
def wrap32 (v : Int) : Int := (v + 2147483648) % 4294967296 - 2147483648

/-- Result of one 32-bit operation when overflow is an error. -/
def chk (v : Int) : Option Int := if inInt v then some v else none

/-- Function `rangeSum(int x,int w)`: `return(w*(2*x + w-1) / 2);` over unbounded
integers; `/` on C integers truncates toward zero. -/
def rangeSum (x w : Int) : Int :=
  Int.tdiv (w * (2 * x + w - 1)) 2

/-- Function `rangeSumSq(int x,int w)` over unbounded integers:
`int y = x + w; int rs = y*(y-1)*(2*y-1) - x*(x-1)*(2*x-1); return(rs / 6);`. -/
def rangeSumSq (x w : Int) : Int :=
  let y := x + w
  let rs := y * (y - 1) * (2 * y - 1) - x * (x - 1) * (2 * x - 1)
  Int.tdiv rs 6

/-- Function `rangeSumSq` over 32-bit `int`, every intermediate value checked:
`none` as soon as one of them is not representable. The products associate to the
left, as in C. -/
def rangeSumSqChecked (x w : Int) : Option Int := do
  let y ← chk (x + w)
  let y1 ← chk (y - 1)
  let a1 ← chk (y * y1)
  let y2 ← chk (2 * y)
  let y3 ← chk (y2 - 1)
  let a ← chk (a1 * y3)
  let x1 ← chk (x - 1)
  let b1 ← chk (x * x1)
  let x2 ← chk (2 * x)
  let x3 ← chk (x2 - 1)
  let b ← chk (b1 * x3)
  let rs ← chk (a - b)
  pure (Int.tdiv rs 6)

/-- Function `rangeSumSq` over 32-bit `int` with wraparound: every intermediate value
is reduced modulo 2^32 into the signed range. -/
def rangeSumSq32 (x w : Int) : Int :=
  let y := wrap32 (x + w)
  let a := wrap32 (wrap32 (y * wrap32 (y - 1)) * wrap32 (wrap32 (2 * y) - 1))
  let b := wrap32 (wrap32 (x * wrap32 (x - 1)) * wrap32 (wrap32 (2 * x) - 1))
  let rs := wrap32 (a - b)
  Int.tdiv rs 6

end CMVisionRegion

/-! ### Accessors of `Region`, operation sequences on `RegionLinkedList` -/

namespace CMVision

/-- Accessor `Region::width()`: `return(x2-x1+1);` in 32-bit `int` arithmetic: the
difference and the sum are each reduced modulo 2^32 into the signed range. -/
def Region.width (r : Region) : Int :=
  CMVisionRegion.wrap32 (CMVisionRegion.wrap32 (r.x2 - r.x1) + 1)

/-- Accessor `Region::height()`: `return(y2-y1+1);` in 32-bit `int` arithmetic. -/
def Region.height (r : Region) : Int :=
  CMVisionRegion.wrap32 (CMVisionRegion.wrap32 (r.y2 - r.y1) + 1)

/-- Method `insertFront(Region * r)`: `r->next=_first; _first=r; _num++;` with the
counter as the 32-bit `int` it is: the increment is reduced modulo 2^32 into the
signed range, so it wraps at `2^31 - 1`. The store to the heap and the assignment of
`_first` are those of `insertFront`. -/
def RegionLinkedList.insertFront32 (l : RegionLinkedList) (h : Heap) (r : Nat) :
    Heap × RegionLinkedList :=
  (Function.update h r { h r with next := l._first },
   { _first := some r, _num := CMVisionRegion.wrap32 (l._num + 1) })

/-- The pointer reached from `p` after `k` steps along `next` (null stays null). -/
def advance (h : Heap) : Nat → RegionPtr → RegionPtr
  | 0, p => p
  | _ + 1, none => none
  | k + 1, some a => advance h k (h a).next

/-- Region `r` is a member of the list that starts at `p`: some number of steps
along `next` leads to `r`. -/
def onChain (h : Heap) (p : RegionPtr) (r : Nat) : Prop :=
  ∃ k, advance h k p = some r

/-- The two mutators of `RegionLinkedList` that the partitioner uses. -/
inductive LinkedListOp where
  | reset
  | insertFront (r : Nat)

/-- Effect of one operation on the heap and the list object. -/
def RegionLinkedList.step (s : Heap × RegionLinkedList) : LinkedListOp → Heap × RegionLinkedList
  | .reset => (s.1, s.2.reset)
  | .insertFront r => s.2.insertFront s.1 r

/-- Effect of a sequence of operations, first to last. -/
def RegionLinkedList.exec (s : Heap × RegionLinkedList) (ops : List LinkedListOp) :
    Heap × RegionLinkedList :=
  ops.foldl RegionLinkedList.step s

/-- Every `insertFront(r)` of the sequence finds `r` outside the list at that time. -/
def RegionLinkedList.freshInserts (s : Heap × RegionLinkedList) : List LinkedListOp → Prop
  | [] => True
  | .reset :: ops => RegionLinkedList.freshInserts (RegionLinkedList.step s .reset) ops
  | .insertFront r :: ops =>
    ¬ onChain s.1 s.2._first r
      ∧ RegionLinkedList.freshInserts (RegionLinkedList.step s (.insertFront r)) ops

end CMVision

/-! ### Region sorter -/

namespace CMVisionRegion

open CMVision

/-- Modelled from the spec: inner loop of the merge of two runs, each in non-increasing
order of area; the region with the larger area goes first, the left run first on a
tie. The body of `sortRegionListByArea` is not part of the sources at hand. -/
def mergeInto (h : Heap) (x : Nat) (xs : List Nat) (rest : List Nat → List Nat) :
    List Nat → List Nat
  | [] => x :: xs
  | y :: ys =>
    if (h y).area ≤ (h x).area then x :: rest (y :: ys)
    else y :: mergeInto h x xs rest ys

/-- Modelled from the spec: merge of two adjacent sorted runs of a list of regions
(spec 4.5, "each pass merges adjacent sorted runs"). -/
def mergeByArea (h : Heap) : List Nat → List Nat → List Nat
  | [], ys => ys
  | x :: xs, ys => mergeInto h x xs (mergeByArea h xs) ys

/-- Modelled from the spec: one pass of the sorter, which merges the runs two by two;
a run without a partner at the end stays as it is. -/
def mergeRuns (h : Heap) : List (List Nat) → List (List Nat)
  | a :: b :: rest => mergeByArea h a b :: mergeRuns h rest
  | rs => rs

/-- Modelled from the spec: `passes` passes in a row; the run length doubles with each
pass. -/
def sortPasses (h : Heap) : Nat → List (List Nat) → List (List Nat)
  | 0, rs => rs
  | p + 1, rs => sortPasses h p (mergeRuns h rs)

/-- Modelled from the spec: the order of the regions after `passes` passes, starting
from runs of length 1 (spec 4.5: "pass 1: runs of length 1, pass 2: length 2"). -/
def sortedOrder (h : Heap) (passes : Nat) (xs : List Nat) : List Nat :=
  (sortPasses h passes (xs.map (fun x => [x]))).flatten

/-- Modelled from the spec: the sort is in place: the `next` fields are rewritten so
that the chain follows the given order and ends in null; the result is the new heap
and the new head of the list. -/
def relink (h : Heap) : List Nat → Heap × RegionPtr
  | [] => (h, none)
  | a :: rest =>
    (Function.update (relink h rest).1 a
        { (relink h rest).1 a with next := (relink h rest).2 },
      some a)

/-- Modelled from the spec: `sortRegionListByArea(Region *list,int passes)`, a
linked-list merge sort bounded to `passes` passes (spec 4.5); only the declaration of
the function is in the header. The list is read along `next` (at most `fuel` steps,
`none` when null is not reached), put in the order that the passes give, and linked
again; the result is the new heap and the returned head. A negative `passes` runs no
pass. -/
def sortRegionListByArea (h : Heap) (list : RegionPtr) (passes : Int) (fuel : Nat) :
    Option (Heap × RegionPtr) :=
  (CMVision.traverse h fuel list).map (fun xs => relink h (sortedOrder h passes.toNat xs))

/-- All runs but the last have length `w`; the last has between 1 and `w` regions. -/
def runsOfWidth (w : Nat) : List (List Nat) → Prop
  | [] => True
  | [r] => 0 < r.length ∧ r.length ≤ w
  | r :: s :: rest => r.length = w ∧ runsOfWidth w (s :: rest)

/-- Non-increasing order of area along a sequence of regions. -/
def areaSorted (h : Heap) (xs : List Nat) : Prop :=
  xs.Pairwise (fun a b => (h b).area ≤ (h a).area)

end CMVisionRegion

/-! ### Colour partitioner -/

namespace CMVisionRegion

open CMVision

/-- The memory that holds the region array of a `RegionList`: element `i` of the array
is at address `i`, and `h0` is the memory elsewhere. -/
def regionMemory (reglist : RegionList) (h0 : Heap) : Heap :=
  fun a => reglist.regions.getD a (h0 a)

/-- Modelled from the spec: one region of the partitioner (spec 4.4). A region with
`area ≥ min_area` is inserted at the front of the bucket that its colour indexes, and
its area enters the running maximum (`none` while nothing was inserted); a smaller
region is dropped. A colour without a bucket is a violation of the precondition
(spec 7) and ends the run with `none`. The body of `separateRegions` is not part of
the sources at hand. -/
def separateStep (min_area : Int) (s : Heap × List RegionLinkedList × Option Int) (i : Nat) :
    Option (Heap × List RegionLinkedList × Option Int) :=
  if min_area ≤ (s.1 i).area then
    match s.2.1[(s.1 i).color]? with
    | none => none
    | some b =>
      some ((b.insertFront s.1 i).1,
        s.2.1.set (s.1 i).color (b.insertFront s.1 i).2,
        some (match s.2.2 with
          | none => (s.1 i).area
          | some v => max v (s.1 i).area))
  else some s

/-- Modelled from the spec: the partitioner over the regions at the given addresses,
in that order. -/
def separateLoop (min_area : Int) :
    List Nat → Heap × List RegionLinkedList × Option Int →
      Option (Heap × List RegionLinkedList × Option Int)
  | [], s => some s
  | i :: is, s => (separateStep min_area s i).bind (separateLoop min_area is)

/-- Modelled from the spec: `separateRegions(colorlist, reglist, min_area)` (spec 4.4):
the used regions of `reglist`, in array order, go through the partitioner; the buckets
are taken as they are (the caller resets them). The result is the new heap, the new
buckets, and the maximum area among the inserted regions, `0` when there is none. -/
def separateRegions (colorlist : ColorRegionList) (reglist : RegionList) (h0 : Heap)
    (min_area : Int) : Option (Heap × ColorRegionList × Int) :=
  (separateLoop min_area (List.range reglist.getUsedRegions.toNat)
      (regionMemory reglist h0, colorlist.getColorRegionArrayPointer, none)).map
    (fun s => (s.1, { colorlist with color_regions := s.2.1 }, s.2.2.getD 0))

/-- Region `i` passes the area filter and has colour `c`. -/
def qualifies (h : Heap) (m : Int) (c : Nat) (i : Nat) : Bool :=
  decide (m ≤ (h i).area) && decide ((h i).color = c)

/-- The running maximum after the given areas, `none` for no area at all. -/
def runningMax (areas : List Int) : Option Int :=
  areas.foldl (fun acc a => some (match acc with
    | none => a
    | some v => max v a)) none

/-- State of the partitioner after the regions `done`: areas and colours are those of
the start `h0`, there are `n` buckets, bucket `c` is the chain of the regions of
`done` that pass the filter and have colour `c`, last inserted first, with the right
count, and the maximum is the running maximum of the inserted areas. -/
def partitioned (h0 : Heap) (m : Int) (n : Nat) (done : List Nat)
    (s : Heap × List RegionLinkedList × Option Int) : Prop :=
  (∀ a, (s.1 a).area = (h0 a).area ∧ (s.1 a).color = (h0 a).color)
    ∧ s.2.1.length = n
    ∧ (∀ c, c < n → ∃ b, s.2.1[c]? = some b
        ∧ CMVision.traverse s.1 (done.filter (qualifies h0 m c)).length b._first
            = some (done.filter (qualifies h0 m c)).reverse
        ∧ b._num = ((done.filter (qualifies h0 m c)).length : Int))
    ∧ s.2.2 = runningMax
        ((done.filter (fun i => decide (m ≤ (h0 i).area))).map (fun i => (h0 i).area))

end CMVisionRegion

/-! ## Range sums -/

namespace CMVisionRegion

theorem Icc_succ_right (x : Int) (n : Nat) :
    Finset.Icc x (x + ((n + 1 : Nat) : Int) - 1)
      = insert (x + n) (Finset.Icc x (x + (n : Int) - 1)) := by
  ext i
  simp only [Finset.mem_Icc, Finset.mem_insert]
  push_cast
  omega

theorem sum_Icc_succ (f : Int → Int) (x : Int) (n : Nat) :
    ∑ i ∈ Finset.Icc x (x + ((n + 1 : Nat) : Int) - 1), f i
      = ∑ i ∈ Finset.Icc x (x + (n : Int) - 1), f i + f (x + n) := by
  rw [Icc_succ_right, Finset.sum_insert, add_comm]
  simp

/-- Twice the sum of the `n` integers from `x` on is the numerator of `rangeSum`. -/
theorem two_mul_sum_Icc (x : Int) (n : Nat) :
    2 * ∑ i ∈ Finset.Icc x (x + (n : Int) - 1), i = n * (2 * x + n - 1) := by
  induction n with
  | zero => simp
  | succ k ih =>
    rw [sum_Icc_succ, mul_add, ih]
    push_cast
    ring

/-- Six times the sum of the squares of the `n` integers from `x` on is the numerator
of `rangeSumSq`. -/
theorem six_mul_sumSq_Icc (x : Int) (n : Nat) :
    6 * ∑ i ∈ Finset.Icc x (x + (n : Int) - 1), i * i
      = (x + n) * (x + n - 1) * (2 * (x + n) - 1) - x * (x - 1) * (2 * x - 1) := by
  induction n with
  | zero => simp
  | succ k ih =>
    rw [sum_Icc_succ, mul_add, ih]
    push_cast
    ring

theorem two_mul_sum_Icc_int (x w : Int) (hw : 0 ≤ w) :
    2 * ∑ i ∈ Finset.Icc x (x + w - 1), i = w * (2 * x + w - 1) := by
  obtain ⟨n, rfl⟩ := Int.eq_ofNat_of_zero_le hw
  exact two_mul_sum_Icc x n

theorem six_mul_sumSq_Icc_int (x w : Int) (hw : 0 ≤ w) :
    6 * ∑ i ∈ Finset.Icc x (x + w - 1), i * i
      = (x + w) * (x + w - 1) * (2 * (x + w) - 1) - x * (x - 1) * (2 * x - 1) := by
  obtain ⟨n, rfl⟩ := Int.eq_ofNat_of_zero_le hw
  exact six_mul_sumSq_Icc x n

theorem rangeSum_eq_aux (x w : Int) (hw : 0 ≤ w) :
    rangeSum x w = ∑ i ∈ Finset.Icc x (x + w - 1), i := by
  unfold rangeSum
  rw [← two_mul_sum_Icc_int x w hw]
  exact Int.mul_tdiv_cancel_left _ (by decide)

theorem rangeSumSq_eq_aux (x w : Int) (hw : 0 ≤ w) :
    rangeSumSq x w = ∑ i ∈ Finset.Icc x (x + w - 1), i * i := by
  unfold rangeSumSq
  simp only
  rw [← six_mul_sumSq_Icc_int x w hw]
  exact Int.mul_tdiv_cancel_left _ (by decide)

/-! ### 32-bit evaluation -/

theorem wrap32_modEq (v : Int) : wrap32 v ≡ v [ZMOD 4294967296] := by
  unfold wrap32 Int.ModEq
  omega

theorem wrap32_congr {a b : Int} (h : a ≡ b [ZMOD 4294967296]) : wrap32 a = wrap32 b := by
  unfold wrap32
  unfold Int.ModEq at h
  omega

theorem wrap32_of_inInt {v : Int} (h : inInt v) : wrap32 v = v := by
  unfold inInt INT_MIN INT_MAX at h
  unfold wrap32
  omega

theorem inInt_wrap32 (v : Int) : inInt (wrap32 v) := by
  unfold inInt INT_MIN INT_MAX wrap32
  omega

theorem chk_of_inInt (v : Int) (h : inInt v) : chk v = some v := by
  simp [chk, h]

theorem chk_of_not_inInt (v : Int) (h : ¬ inInt v) : chk v = none := by
  simp [chk, h]

theorem chk_eq_some {v u : Int} (h : chk v = some u) : u = v := by
  unfold chk at h
  split at h
  · exact (Option.some.inj h).symm
  · exact absurd h (by simp)

/-- The wraparound evaluation computes the exact numerator modulo 2^32. -/
theorem rangeSumSq32_eq_wrap (x w : Int) :
    rangeSumSq32 x w
      = Int.tdiv
          (wrap32 ((x + w) * (x + w - 1) * (2 * (x + w) - 1) - x * (x - 1) * (2 * x - 1))) 6 := by
  unfold rangeSumSq32
  simp only
  congr 1
  apply wrap32_congr
  have hy := wrap32_modEq (x + w)
  refine Int.ModEq.sub ?_ ?_
  · refine (wrap32_modEq _).trans (Int.ModEq.mul ?_ ?_)
    · exact (wrap32_modEq _).trans (hy.mul ((wrap32_modEq _).trans (hy.sub_right 1)))
    · exact (wrap32_modEq _).trans (((wrap32_modEq _).trans (hy.mul_left 2)).sub_right 1)
  · refine (wrap32_modEq _).trans (Int.ModEq.mul ?_ ?_)
    · exact (wrap32_modEq _).trans (Int.ModEq.mul_left x (wrap32_modEq _))
    · exact (wrap32_modEq _).trans ((wrap32_modEq _).sub_right 1)

theorem tmod_six_bounds (a : Int) : -6 < Int.tmod a 6 ∧ Int.tmod a 6 < 6 := by
  refine ⟨?_, Int.tmod_lt_of_pos a (by decide)⟩
  rcases a with n | n
  · have := Int.tmod_nonneg 6 (Int.ofNat_nonneg n)
    simp only [Int.ofNat_eq_coe]
    omega
  · show -6 < -((((n + 1) % 6 : Nat)) : Int)
    omega

/-- Dividing the wrapped value of `6 * s` by 6 gives back `s` exactly when `6 * s` is
representable. -/
theorem tdiv_wrap32_six_mul (s : Int) : Int.tdiv (wrap32 (6 * s)) 6 = s ↔ inInt (6 * s) := by
  constructor
  · intro h
    have h1 := Int.tmod_add_tdiv (wrap32 (6 * s)) 6
    have h2 := tmod_six_bounds (wrap32 (6 * s))
    rw [h] at h1
    have h3 := inInt_wrap32 (6 * s)
    have h4 : wrap32 (6 * s) = 6 * s := by
      unfold wrap32 at h1 h2 ⊢
      omega
    rw [h4] at h3
    exact h3
  · intro h
    rw [wrap32_of_inInt h]
    exact Int.mul_tdiv_cancel_left _ (by decide)

theorem rangeSumSq32_eq_iff (x w : Int) (hw : 0 ≤ w) :
    rangeSumSq32 x w = ∑ i ∈ Finset.Icc x (x + w - 1), i * i
      ↔ inInt (6 * ∑ i ∈ Finset.Icc x (x + w - 1), i * i) := by
  rw [rangeSumSq32_eq_wrap, ← six_mul_sumSq_Icc_int x w hw]
  exact tdiv_wrap32_six_mul _

/-- Bounds on the quadratic and cubic terms for an argument in `[0, 1024]`. -/
theorem cubic_bounds (y : Int) (h0 : 0 ≤ y) (h1 : y ≤ 1024) :
    0 ≤ y * (y - 1) ∧ y * (y - 1) ≤ 1047552 ∧
      0 ≤ y * (y - 1) * (2 * y - 1) ∧ y * (y - 1) * (2 * y - 1) ≤ 2144338944 := by
  have ha : 0 ≤ y * (y - 1) := by
    rcases eq_or_lt_of_le h0 with h | h
    · subst h; simp
    · exact mul_nonneg h0 (by omega)
  have hb : y * (y - 1) ≤ 1047552 := by nlinarith
  refine ⟨ha, hb, ?_, ?_⟩
  · rcases eq_or_lt_of_le h0 with h | h
    · subst h; simp
    · exact mul_nonneg ha (by omega)
  · nlinarith

/-- The cubic term exceeds the `int` range as soon as its argument exceeds 1024. -/
theorem cubic_gt_INT_MAX (y : Int) (h : 1024 < y) :
    INT_MAX < y * (y - 1) * (2 * y - 1) := by
  unfold INT_MAX
  have h1 : 1025 * 1024 ≤ y * (y - 1) := by nlinarith
  nlinarith

theorem rangeSumSqChecked_eq_aux (x w : Int) (hx : 0 ≤ x) (hw : 0 ≤ w) (h : x + w ≤ 1024) :
    rangeSumSqChecked x w = some (∑ i ∈ Finset.Icc x (x + w - 1), i * i) := by
  obtain ⟨hy1, hy2, hy3, hy4⟩ := cubic_bounds (x + w) (by omega) h
  obtain ⟨hx1, hx2, hx3, hx4⟩ := cubic_bounds x hx (by omega)
  have e := rangeSumSq_eq_aux x w hw
  unfold rangeSumSq at e
  simp only at e
  unfold rangeSumSqChecked
  rw [chk_of_inInt (x + w) (by unfold inInt INT_MIN INT_MAX; omega)]
  simp only [Option.bind_eq_bind, Option.some_bind]
  rw [chk_of_inInt (x + w - 1) (by unfold inInt INT_MIN INT_MAX; omega)]
  simp only [Option.some_bind]
  rw [chk_of_inInt ((x + w) * (x + w - 1)) (by unfold inInt INT_MIN INT_MAX; omega)]
  simp only [Option.some_bind]
  rw [chk_of_inInt (2 * (x + w)) (by unfold inInt INT_MIN INT_MAX; omega)]
  simp only [Option.some_bind]
  rw [chk_of_inInt (2 * (x + w) - 1) (by unfold inInt INT_MIN INT_MAX; omega)]
  simp only [Option.some_bind]
  rw [chk_of_inInt ((x + w) * (x + w - 1) * (2 * (x + w) - 1))
    (by unfold inInt INT_MIN INT_MAX; omega)]
  simp only [Option.some_bind]
  rw [chk_of_inInt (x - 1) (by unfold inInt INT_MIN INT_MAX; omega)]
  simp only [Option.some_bind]
  rw [chk_of_inInt (x * (x - 1)) (by unfold inInt INT_MIN INT_MAX; omega)]
  simp only [Option.some_bind]
  rw [chk_of_inInt (2 * x) (by unfold inInt INT_MIN INT_MAX; omega)]
  simp only [Option.some_bind]
  rw [chk_of_inInt (2 * x - 1) (by unfold inInt INT_MIN INT_MAX; omega)]
  simp only [Option.some_bind]
  rw [chk_of_inInt (x * (x - 1) * (2 * x - 1)) (by unfold inInt INT_MIN INT_MAX; omega)]
  simp only [Option.some_bind]
  rw [chk_of_inInt ((x + w) * (x + w - 1) * (2 * (x + w) - 1) - x * (x - 1) * (2 * x - 1))
    (by unfold inInt INT_MIN INT_MAX; omega)]
  simp only [Option.some_bind]
  rw [← e]
  rfl

/-- Beyond 1024 the checked evaluation fails: the cubic term, if it is reached at all,
is not representable. -/
theorem rangeSumSqChecked_none (x w : Int) (h : 1024 < x + w) :
    rangeSumSqChecked x w = none := by
  have hc := cubic_gt_INT_MAX (x + w) h
  unfold rangeSumSqChecked
  simp only [Option.bind_eq_bind]
  cases e1 : chk (x + w) with
  | none => rfl
  | some y =>
    have := chk_eq_some e1; subst this
    simp only [Option.some_bind]
    cases e2 : chk (x + w - 1) with
    | none => rfl
    | some y1 =>
      have := chk_eq_some e2; subst this
      simp only [Option.some_bind]
      cases e3 : chk ((x + w) * (x + w - 1)) with
      | none => rfl
      | some a1 =>
        have := chk_eq_some e3; subst this
        simp only [Option.some_bind]
        cases e4 : chk (2 * (x + w)) with
        | none => rfl
        | some y2 =>
          have := chk_eq_some e4; subst this
          simp only [Option.some_bind]
          cases e5 : chk (2 * (x + w) - 1) with
          | none => rfl
          | some y3 =>
            have := chk_eq_some e5; subst this
            simp only [Option.some_bind]
            rw [chk_of_not_inInt _ (by unfold inInt; omega)]
            rfl

end CMVisionRegion

/-! ## Arenas, linked lists and buckets -/

namespace CMVision

theorem RunList_construct_of_nonneg (C : Int) (hC : 0 ≤ C) (fresh : Nat → Run) :
    RunList.construct C fresh
      = some { runs := (List.range C.toNat).map fresh, max_runs := C, used_runs := 0 } := by
  unfold RunList.construct
  rw [if_neg (by omega)]

theorem RegionList_construct_of_nonneg (C : Int) (hC : 0 ≤ C) (fresh : Nat → Region) :
    RegionList.construct C fresh
      = some { regions := (List.range C.toNat).map fresh, max_regions := C,
               used_regions := 0 } := by
  unfold RegionList.construct
  rw [if_neg (by omega)]

/-- No public operation of `RunList` writes the capacity or the run array. -/
theorem RunList_exec_frame (l : RunList) (ops : List RunListOp) :
    (l.exec ops).max_runs = l.max_runs ∧ (l.exec ops).runs = l.runs := by
  induction ops generalizing l with
  | nil => exact ⟨rfl, rfl⟩
  | cons op ops ih =>
    have h := ih (l.step op)
    cases op <;> exact h

/-- No public operation of `RegionList` writes the capacity or the region array. -/
theorem RegionList_exec_frame (l : RegionList) (ops : List RegionListOp) :
    (l.exec ops).max_regions = l.max_regions ∧ (l.exec ops).regions = l.regions := by
  induction ops generalizing l with
  | nil => exact ⟨rfl, rfl⟩
  | cons op ops ih =>
    have h := ih (l.step op)
    cases op <;> exact h

/-- The invariant survives every sequence of operations whose `setUsedRuns` arguments
lie between 0 and the capacity. -/
theorem RunList_exec_arenaInv (l : RunList) (ops : List RunListOp) (hl : l.arenaInv)
    (hops : ∀ k, RunListOp.setUsedRuns k ∈ ops → 0 ≤ k ∧ k ≤ l.max_runs) :
    (l.exec ops).arenaInv := by
  induction ops generalizing l with
  | nil => exact hl
  | cons op ops ih =>
    have hrest : ∀ k, RunListOp.setUsedRuns k ∈ ops → 0 ≤ k ∧ k ≤ l.max_runs :=
      fun k hk => hops k (List.mem_cons_of_mem _ hk)
    cases op with
    | setUsedRuns k =>
      exact ih (l.setUsedRuns k) (hops k (List.mem_cons_self _ _)) hrest
    | getUsedRuns => exact ih l hl hrest
    | getMaxRuns => exact ih l hl hrest
    | getRunArrayPointer => exact ih l hl hrest

/-- The invariant survives every sequence of operations whose `setUsedRegions`
arguments lie between 0 and the capacity. -/
theorem RegionList_exec_arenaInv (l : RegionList) (ops : List RegionListOp)
    (hl : l.arenaInv)
    (hops : ∀ k, RegionListOp.setUsedRegions k ∈ ops → 0 ≤ k ∧ k ≤ l.max_regions) :
    (l.exec ops).arenaInv := by
  induction ops generalizing l with
  | nil => exact hl
  | cons op ops ih =>
    have hrest : ∀ k, RegionListOp.setUsedRegions k ∈ ops → 0 ≤ k ∧ k ≤ l.max_regions :=
      fun k hk => hops k (List.mem_cons_of_mem _ hk)
    cases op with
    | setUsedRegions k =>
      exact ih (l.setUsedRegions k) (hops k (List.mem_cons_self _ _)) hrest
    | getUsedRegions => exact ih l hl hrest
    | getMaxRegions => exact ih l hl hrest
    | getRegionArrayPointer => exact ih l hl hrest

/-! ### Traversal of the chain -/

/-- A store to a region that is not on the chain does not change the traversal. -/
theorem traverse_update (h : Heap) (r : Nat) (v : Region) (fuel : Nat) (p : RegionPtr)
    (cs : List Nat) (ht : traverse h fuel p = some cs) (hr : r ∉ cs) :
    traverse (Function.update h r v) fuel p = some cs := by
  induction fuel generalizing p cs with
  | zero =>
    cases p with
    | none => simpa [traverse] using ht
    | some a => simp [traverse] at ht
  | succ n ih =>
    cases p with
    | none => simpa [traverse] using ht
    | some a =>
      simp only [traverse, Option.map_eq_some'] at ht
      obtain ⟨ds, hds, rfl⟩ := ht
      have hne : a ≠ r := fun e => hr (by simp [e])
      have hr2 : r ∉ ds := fun m => hr (List.mem_cons_of_mem _ m)
      simp only [traverse, Function.update_noteq hne, ih _ _ hds hr2, Option.map_some']

/-- More fuel does not change a traversal that reached null. -/
theorem traverse_mono (h : Heap) (fuel : Nat) (p : RegionPtr) (cs : List Nat)
    (ht : traverse h fuel p = some cs) (k : Nat) :
    traverse h (fuel + k) p = some cs := by
  induction fuel generalizing p cs with
  | zero =>
    cases p with
    | none => simpa [traverse] using ht
    | some a => simp [traverse] at ht
  | succ n ih =>
    cases p with
    | none => simpa [traverse] using ht
    | some a =>
      simp only [traverse, Option.map_eq_some'] at ht
      obtain ⟨ds, hds, rfl⟩ := ht
      rw [show n + 1 + k = (n + k) + 1 by omega]
      simp only [traverse, ih _ _ hds, Option.map_some']

/-- Inserting pairwise distinct regions, none of them on the chain `cs` of the list,
puts them in front of `cs` in reverse order and adds their number to the count. -/
theorem insertAll_chain (rs : List Nat) (l : RegionLinkedList) (h : Heap) (cs : List Nat)
    (fuel : Nat) (ht : traverse h fuel l._first = some cs) (hnd : rs.Nodup)
    (hdisj : ∀ r ∈ rs, r ∉ cs) :
    traverse (l.insertAll h rs).1 (fuel + rs.length) (l.insertAll h rs).2._first
        = some (rs.reverse ++ cs)
      ∧ (l.insertAll h rs).2._num = l._num + rs.length := by
  induction rs generalizing l h cs fuel with
  | nil => exact ⟨by simpa [RegionLinkedList.insertAll] using ht, by simp [RegionLinkedList.insertAll]⟩
  | cons r rs ih =>
    have hr : r ∉ cs := hdisj r (List.mem_cons_self _ _)
    obtain ⟨hrs, hnd2⟩ := List.nodup_cons.mp hnd
    have ht2 : traverse (l.insertFront h r).1 (fuel + 1) (l.insertFront h r).2._first
        = some (r :: cs) := by
      simp only [RegionLinkedList.insertFront, traverse, Function.update_same]
      rw [traverse_update h r _ fuel l._first cs ht hr]
      rfl
    have hdisj2 : ∀ q ∈ rs, q ∉ r :: cs := by
      intro q hq hm
      rcases List.mem_cons.mp hm with e | m
      · exact hrs (e ▸ hq)
      · exact hdisj q (List.mem_cons_of_mem _ hq) m
    obtain ⟨h1, h2⟩ := ih (l.insertFront h r).2 (l.insertFront h r).1 (r :: cs) (fuel + 1)
      ht2 hnd2 hdisj2
    refine ⟨?_, ?_⟩
    · simp only [RegionLinkedList.insertAll, List.length_cons, List.reverse_cons,
        List.append_assoc, List.singleton_append]
      rw [show fuel + (rs.length + 1) = fuel + 1 + rs.length by omega]
      exact h1
    · simp only [RegionLinkedList.insertAll, List.length_cons]
      rw [h2]
      simp only [RegionLinkedList.insertFront]
      push_cast
      ring

end CMVision

/-! ## Range sums: the closed forms against the sums they stand for -/

namespace CMVisionRegion

/-- C1: for every integer `x` and every integer `w ≥ 0`, over unbounded integers with
truncating division, `rangeSum x w` is the sum of the integers `i` with
`x ≤ i ≤ x + w - 1` (the empty sum `0` when `w = 0`), and the numerator
`w * (2 * x + w - 1)` is even, so the division by 2 is exact. -/
theorem rangeSum_eq_sum (x w : Int) (hw : 0 ≤ w) :
    rangeSum x w = ∑ i ∈ Finset.Icc x (x + w - 1), i
      ∧ 2 ∣ w * (2 * x + w - 1)
      ∧ 2 * rangeSum x w = w * (2 * x + w - 1)
      ∧ rangeSum x 0 = 0 := by
  have h := two_mul_sum_Icc_int x w hw
  refine ⟨rangeSum_eq_aux x w hw, ⟨_, h.symm⟩, ?_, ?_⟩
  · rw [rangeSum_eq_aux x w hw, h]
  · simp [rangeSum]

/-- Instance of C1 at `x = -3`, `w = 4`. -/
theorem rangeSum_eq_sum_witness :
    (0 : Int) ≤ 4 ∧ rangeSum (-3) 4 = ∑ i ∈ Finset.Icc (-3 : Int) (-3 + 4 - 1), i :=
  ⟨by decide, (rangeSum_eq_sum (-3) 4 (by decide)).1⟩

/-- C2: for every integer `x` and every integer `w ≥ 0`, over unbounded integers with
truncating division, `rangeSumSq x w` is the sum of `i * i` over the integers `i` with
`x ≤ i ≤ x + w - 1`, and the numerator is divisible by 6. -/
theorem rangeSumSq_eq_sum (x w : Int) (hw : 0 ≤ w) :
    rangeSumSq x w = ∑ i ∈ Finset.Icc x (x + w - 1), i * i
      ∧ 6 ∣ (x + w) * (x + w - 1) * (2 * (x + w) - 1) - x * (x - 1) * (2 * x - 1)
      ∧ 6 * rangeSumSq x w
          = (x + w) * (x + w - 1) * (2 * (x + w) - 1) - x * (x - 1) * (2 * x - 1) := by
  have h := six_mul_sumSq_Icc_int x w hw
  refine ⟨rangeSumSq_eq_aux x w hw, ⟨_, h.symm⟩, ?_⟩
  rw [rangeSumSq_eq_aux x w hw, h]

/-- Instance of C2 at `x = -3`, `w = 4`. -/
theorem rangeSumSq_eq_sum_witness :
    (0 : Int) ≤ 4 ∧ rangeSumSq (-3) 4 = ∑ i ∈ Finset.Icc (-3 : Int) (-3 + 4 - 1), i * i :=
  ⟨by decide, (rangeSumSq_eq_sum (-3) 4 (by decide)).1⟩

/-- C3: for every `x ≥ 0` and `w ≥ 0` with `x + w ≤ 1024`, the evaluation of
`rangeSumSq` in signed 32-bit arithmetic overflows at no step (the checked evaluation
succeeds; `x + w`, the products of both cubic terms and the difference are all
representable) and the result is the exact sum of `i * i` for `x ≤ i ≤ x + w - 1`;
the wraparound evaluation gives the same value. -/
theorem rangeSumSq_int32_exact (x w : Int) (hx : 0 ≤ x) (hw : 0 ≤ w) (h : x + w ≤ 1024) :
    rangeSumSqChecked x w = some (∑ i ∈ Finset.Icc x (x + w - 1), i * i)
      ∧ rangeSumSq32 x w = ∑ i ∈ Finset.Icc x (x + w - 1), i * i
      ∧ inInt (x + w)
      ∧ inInt ((x + w) * (x + w - 1))
      ∧ inInt ((x + w) * (x + w - 1) * (2 * (x + w) - 1))
      ∧ inInt (x * (x - 1))
      ∧ inInt (x * (x - 1) * (2 * x - 1))
      ∧ inInt ((x + w) * (x + w - 1) * (2 * (x + w) - 1) - x * (x - 1) * (2 * x - 1)) := by
  obtain ⟨hy1, hy2, hy3, hy4⟩ := cubic_bounds (x + w) (by omega) h
  obtain ⟨hx1, hx2, hx3, hx4⟩ := cubic_bounds x hx (by omega)
  refine ⟨rangeSumSqChecked_eq_aux x w hx hw h, ?_, ?_, ?_, ?_, ?_, ?_, ?_⟩
  · rw [rangeSumSq32_eq_iff x w hw, six_mul_sumSq_Icc_int x w hw]
    unfold inInt INT_MIN INT_MAX
    omega
  all_goals (unfold inInt INT_MIN INT_MAX; omega)

/-- Instance of C3 at `x = 1000`, `w = 24`, where `x + w = 1024`. -/
theorem rangeSumSq_int32_exact_witness :
    (0 : Int) ≤ 1000 ∧ (0 : Int) ≤ 24 ∧ (1000 : Int) + 24 ≤ 1024
      ∧ rangeSumSqChecked 1000 24
          = some (∑ i ∈ Finset.Icc (1000 : Int) (1000 + 24 - 1), i * i) :=
  ⟨by decide, by decide, by decide,
    (rangeSumSq_int32_exact 1000 24 (by decide) (by decide) (by decide)).1⟩

/-- C4, against the claim as stated: at `x = 1024`, `w = 1` (so `x + w = 1025 > 1024`)
the 32-bit wraparound result of `rangeSumSq` is `1048576`, which is the exact sum of
squares over `1024 ≤ i ≤ 1024`. -/
theorem rangeSumSq32_exact_at_1024_1 :
    (1024 : Int) < 1024 + 1
      ∧ rangeSumSq32 1024 1 = 1048576
      ∧ ∑ i ∈ Finset.Icc (1024 : Int) (1024 + 1 - 1), i * i = 1048576
      ∧ rangeSumSq32 1024 1 = ∑ i ∈ Finset.Icc (1024 : Int) (1024 + 1 - 1), i * i := by
  decide

/-- C4, amended: for every `x` and `w` with `x + w > 1024`, the exact cubic term
`y * (y - 1) * (2 * y - 1)`, `y = x + w`, exceeds `2^31 - 1`, so the evaluation in
32-bit `int` without overflow is not possible; and for `w ≥ 0` the wraparound result
differs from the exact sum of `i * i` for `x ≤ i ≤ x + w - 1` exactly when six times
that sum is not representable in 32 bits. -/
theorem rangeSumSq32_beyond_1024 (x w : Int) (h : 1024 < x + w) :
    INT_MAX < (x + w) * (x + w - 1) * (2 * (x + w) - 1)
      ∧ rangeSumSqChecked x w = none
      ∧ (0 ≤ w →
          (rangeSumSq32 x w ≠ ∑ i ∈ Finset.Icc x (x + w - 1), i * i
            ↔ ¬ inInt (6 * ∑ i ∈ Finset.Icc x (x + w - 1), i * i))) :=
  ⟨cubic_gt_INT_MAX (x + w) h, rangeSumSqChecked_none x w h,
    fun hw => not_congr (rangeSumSq32_eq_iff x w hw)⟩

/-- Instance of C4 (amended) at `x = 20000`, `w = 1`: six times the exact sum
`400000000` is not representable and the wraparound result differs from it. -/
theorem rangeSumSq32_beyond_1024_witness :
    (1024 : Int) < 20000 + 1
      ∧ rangeSumSqChecked 20000 1 = none
      ∧ rangeSumSq32 20000 1 ≠ ∑ i ∈ Finset.Icc (20000 : Int) (20000 + 1 - 1), i * i :=
  ⟨by decide, (rangeSumSq32_beyond_1024 20000 1 (by decide)).2.1,
    ((rangeSumSq32_beyond_1024 20000 1 (by decide)).2.2 (by decide)).2 (by decide)⟩

end CMVisionRegion

/-! ## Arenas, linked lists and buckets: the properties -/

namespace CMVision

/-- The 32-bit `insertFront` is the integer one as long as the incremented count is
representable. -/
theorem insertFront32_eq_insertFront (l : RegionLinkedList) (h : Heap) (r : Nat)
    (hn : CMVisionRegion.inInt (l._num + 1)) : l.insertFront32 h r = l.insertFront h r := by
  simp only [RegionLinkedList.insertFront32, RegionLinkedList.insertFront,
    CMVisionRegion.wrap32_of_inInt hn]

/-- C6, against the claim as stated: on a list whose count was set to `2^31 - 1` with
`setNum`, `insertFront(r)` leaves `getNumRegions() = -2^31`, which is not `n + 1`. -/
theorem insertFront32_count_wraps :
    CMVisionRegion.inInt
        ((RegionLinkedList.construct ⟨some 9, 5⟩).setNum 2147483647).getNumRegions
      ∧ (((RegionLinkedList.construct ⟨some 9, 5⟩).setNum 2147483647).insertFront32
          (fun _ => ⟨0, 0, 0, 0, 0, 0, 0, 0, 0, 0, none, none⟩) 4).2.getNumRegions
          = -2147483648
      ∧ (((RegionLinkedList.construct ⟨some 9, 5⟩).setNum 2147483647).insertFront32
          (fun _ => ⟨0, 0, 0, 0, 0, 0, 0, 0, 0, 0, none, none⟩) 4).2.getNumRegions
          ≠ ((RegionLinkedList.construct ⟨some 9, 5⟩).setNum 2147483647).getNumRegions + 1 := by
  decide

/-- C6, amended: for every list state (first `f`, count `n`), every heap and every
region `r`, after `insertFront(r)`: `getInitialElement()` is `r`, `r.next` is the
previous first element, every region other than `r` is unchanged, and every field of
`r` other than `next` is unchanged; and `getNumRegions()` is `n + 1` whenever the count
`n` (a 32-bit `int`) is below `2^31 - 1`. -/
theorem insertFront32_effect (l : RegionLinkedList) (h : Heap) (r : Nat) :
    (l.insertFront32 h r).2.getInitialElement = some r
      ∧ ((l.insertFront32 h r).1 r).next = l.getInitialElement
      ∧ (CMVisionRegion.inInt l.getNumRegions → l.getNumRegions < CMVisionRegion.INT_MAX →
          (l.insertFront32 h r).2.getNumRegions = l.getNumRegions + 1)
      ∧ (∀ a, a ≠ r → (l.insertFront32 h r).1 a = h a)
      ∧ ((l.insertFront32 h r).1 r).color = (h r).color
      ∧ ((l.insertFront32 h r).1 r).x1 = (h r).x1
      ∧ ((l.insertFront32 h r).1 r).y1 = (h r).y1
      ∧ ((l.insertFront32 h r).1 r).x2 = (h r).x2
      ∧ ((l.insertFront32 h r).1 r).y2 = (h r).y2
      ∧ ((l.insertFront32 h r).1 r).cen_x = (h r).cen_x
      ∧ ((l.insertFront32 h r).1 r).cen_y = (h r).cen_y
      ∧ ((l.insertFront32 h r).1 r).area = (h r).area
      ∧ ((l.insertFront32 h r).1 r).run_start = (h r).run_start
      ∧ ((l.insertFront32 h r).1 r).iterator_id = (h r).iterator_id
      ∧ ((l.insertFront32 h r).1 r).tree_next = (h r).tree_next := by
  refine ⟨rfl, ?_, ?_, ?_, ?_, ?_, ?_, ?_, ?_, ?_, ?_, ?_, ?_, ?_, ?_⟩
  · simp [RegionLinkedList.insertFront32, RegionLinkedList.getInitialElement]
  · intro hn hlt
    have hin : CMVisionRegion.inInt (l._num + 1) := by
      unfold CMVisionRegion.inInt CMVisionRegion.INT_MIN CMVisionRegion.INT_MAX
        RegionLinkedList.getNumRegions at *
      omega
    simp only [RegionLinkedList.insertFront32, RegionLinkedList.getNumRegions,
      CMVisionRegion.wrap32_of_inInt hin]
  · intro a ha
    simp [RegionLinkedList.insertFront32, Function.update_noteq ha]
  all_goals simp [RegionLinkedList.insertFront32]

/-- Instance of C6 (amended): the list `9 → ...` with count 5, and region 4 inserted. -/
theorem insertFront32_effect_witness :
    CMVisionRegion.inInt (RegionLinkedList.mk (some 9) 5).getNumRegions
      ∧ (RegionLinkedList.mk (some 9) 5).getNumRegions < CMVisionRegion.INT_MAX
      ∧ ((RegionLinkedList.mk (some 9) 5).insertFront32
          (fun _ => ⟨0, 0, 0, 0, 0, 0, 0, 0, 0, 0, none, none⟩) 4).2.getNumRegions
          = (RegionLinkedList.mk (some 9) 5).getNumRegions + 1 :=
  ⟨by decide, by decide,
    (insertFront32_effect (RegionLinkedList.mk (some 9) 5)
      (fun _ => ⟨0, 0, 0, 0, 0, 0, 0, 0, 0, 0, none, none⟩) 4).2.2.1
      (by decide) (by decide)⟩

/-- C7: for every list `r1, ..., rn` of pairwise distinct regions, the calls
`insertFront(r1)`, ..., `insertFront(rn)` on an empty list (reset, or freshly
constructed, which is the same) give a list whose traversal from
`getInitialElement()` along `next` visits `rn, ..., r1` in that order and then reaches
null (with any fuel of at least `n` steps), and `getNumRegions()` is `n`. -/
theorem insertFront_reverse_order (l : RegionLinkedList) (h : Heap) (rs : List Nat)
    (hnd : rs.Nodup) :
    (∀ fuel, rs.length ≤ fuel →
        traverse (l.reset.insertAll h rs).1 fuel (l.reset.insertAll h rs).2.getInitialElement
          = some rs.reverse)
      ∧ (l.reset.insertAll h rs).2.getNumRegions = rs.length
      ∧ l.construct = l.reset := by
  have key := insertAll_chain rs l.reset h [] 0 (by simp [RegionLinkedList.reset, traverse])
    hnd (fun _ _ => List.not_mem_nil _)
  refine ⟨?_, ?_, rfl⟩
  · intro fuel hf
    have h1 := traverse_mono _ _ _ _ key.1 (fuel - rs.length)
    rw [show 0 + rs.length + (fuel - rs.length) = fuel by omega, List.append_nil] at h1
    exact h1
  · have h2 := key.2
    simp only [RegionLinkedList.reset, zero_add] at h2
    exact h2

/-- Instance of C7: three distinct regions inserted into a reset list. -/
theorem insertFront_reverse_order_witness :
    [4, 2, 7].Nodup
      ∧ traverse
          ((RegionLinkedList.mk (some 9) 5).reset.insertAll
            (fun _ => ⟨0, 0, 0, 0, 0, 0, 0, 0, 0, 0, none, none⟩) [4, 2, 7]).1 3
          ((RegionLinkedList.mk (some 9) 5).reset.insertAll
            (fun _ => ⟨0, 0, 0, 0, 0, 0, 0, 0, 0, 0, none, none⟩)
            [4, 2, 7]).2.getInitialElement
          = some [7, 2, 4] :=
  ⟨by decide,
    (insertFront_reverse_order (RegionLinkedList.mk (some 9) 5)
      (fun _ => ⟨0, 0, 0, 0, 0, 0, 0, 0, 0, 0, none, none⟩) [4, 2, 7] (by decide)).1 3
      (le_refl 3)⟩

/-- C8: for every `n ≥ 0`, the constructor `ColorRegionList(n)` succeeds, the new
object reports `getNumColorRegions() = n`, it has `n` buckets, and each bucket
`0 .. n-1` is empty (`getInitialElement()` null, `getNumRegions()` 0); and `reset()`
returns any `RegionLinkedList`, whatever its state, to that empty state. -/
theorem ColorRegionList_construct_empty (n : Int) (hn : 0 ≤ n)
    (fresh : Nat → RegionLinkedList) :
    (∃ c, ColorRegionList.construct n fresh = some c
        ∧ c.getNumColorRegions = n
        ∧ (c.getColorRegionArrayPointer.length : Int) = n
        ∧ ∀ i : Nat, (i : Int) < n →
            ∃ b, c.getColorRegionArrayPointer[i]? = some b
              ∧ b.getInitialElement = none ∧ b.getNumRegions = 0)
      ∧ ∀ l : RegionLinkedList,
          l.reset.getInitialElement = none ∧ l.reset.getNumRegions = 0 := by
  refine ⟨⟨_, if_neg (by omega), rfl, ?_, ?_⟩, fun _ => ⟨rfl, rfl⟩⟩
  · simp [ColorRegionList.getColorRegionArrayPointer, Int.toNat_of_nonneg hn]
  · intro i hi
    have hi2 : i < n.toNat := by omega
    refine ⟨(fresh i).construct, ?_, rfl, rfl⟩
    simp [ColorRegionList.getColorRegionArrayPointer, List.getElem?_map,
      List.getElem?_range hi2]

/-- Instance of C8: three colour classes over arbitrary fresh storage. -/
theorem ColorRegionList_construct_empty_witness :
    (0 : Int) ≤ 3
      ∧ ∃ c, ColorRegionList.construct 3 (fun _ => ⟨some 7, 42⟩) = some c
          ∧ c.getNumColorRegions = 3 :=
  ⟨by decide,
    let ⟨c, hc, hnum, _⟩ :=
      (ColorRegionList_construct_empty 3 (by decide) (fun _ => ⟨some 7, 42⟩)).1
    ⟨c, hc, hnum⟩⟩

/-- C9, against the claim as stated: on a `RunList` of capacity 5, `setUsedRuns(-1)`
leaves `getUsedRuns() = -1 < 0` and `setUsedRuns(6)` leaves
`getUsedRuns() = 6 > 5 = getMaxRuns()`; so the invariant does not hold after every
sequence of public operations. -/
theorem setUsedRuns_breaks_arenaInv :
    (RunList.construct 5 (fun _ => ⟨0, 0, 0, 0, 0, 0⟩)).map
        (fun l => ((l.exec [.setUsedRuns (-1)]).getUsedRuns,
          (l.exec [.setUsedRuns 6]).getUsedRuns, (l.exec [.setUsedRuns 6]).getMaxRuns))
        = some (-1, 6, 5)
      ∧ ¬ (∀ (C : Int) (fresh : Nat → Run) (l : RunList) (ops : List RunListOp),
            0 ≤ C → RunList.construct C fresh = some l → (l.exec ops).arenaInv) := by
  refine ⟨by decide, fun hall => ?_⟩
  have h := hall 5 (fun _ => ⟨0, 0, 0, 0, 0, 0⟩) _ [.setUsedRuns (-1)] (by decide)
    (RunList_construct_of_nonneg 5 (by decide) _)
  exact absurd h.1 (by decide)

/-- C9, amended: a `RunList` constructed with capacity `C ≥ 0` satisfies
`0 ≤ used ≤ capacity`, and so does the state after every sequence of public operations
in which each `setUsedRuns` argument `k` has `0 ≤ k ≤ C`; `setUsedRuns` does not check
its argument, and after `setUsedRuns(k)` the invariant holds exactly when
`0 ≤ k ≤ getMaxRuns()`. Likewise for `RegionList`. -/
theorem arenaInv_of_guarded_ops (C : Int) (hC : 0 ≤ C) :
    (∀ fresh, ∃ l, RunList.construct C fresh = some l ∧ l.arenaInv
        ∧ ∀ ops, (∀ k, RunListOp.setUsedRuns k ∈ ops → 0 ≤ k ∧ k ≤ C) →
            (l.exec ops).arenaInv)
      ∧ (∀ fresh, ∃ l, RegionList.construct C fresh = some l ∧ l.arenaInv
        ∧ ∀ ops, (∀ k, RegionListOp.setUsedRegions k ∈ ops → 0 ≤ k ∧ k ≤ C) →
            (l.exec ops).arenaInv)
      ∧ (∀ (l : RunList) (k : Int), (l.setUsedRuns k).arenaInv ↔ 0 ≤ k ∧ k ≤ l.getMaxRuns)
      ∧ (∀ (l : RegionList) (k : Int),
          (l.setUsedRegions k).arenaInv ↔ 0 ≤ k ∧ k ≤ l.getMaxRegions) := by
  refine ⟨fun fresh => ⟨_, RunList_construct_of_nonneg C hC fresh, ⟨le_refl 0, hC⟩, ?_⟩,
    fun fresh => ⟨_, RegionList_construct_of_nonneg C hC fresh, ⟨le_refl 0, hC⟩, ?_⟩,
    fun _ _ => Iff.rfl, fun _ _ => Iff.rfl⟩
  · intro ops hops
    exact RunList_exec_arenaInv _ ops ⟨le_refl 0, hC⟩ hops
  · intro ops hops
    exact RegionList_exec_arenaInv _ ops ⟨le_refl 0, hC⟩ hops

/-- Instance of C9 (amended): capacity 5, the used count set to 3 and then to 0. -/
theorem arenaInv_of_guarded_ops_witness :
    (0 : Int) ≤ 5
      ∧ ∃ l, RunList.construct 5 (fun _ => ⟨0, 0, 0, 0, 0, 0⟩) = some l
          ∧ (l.exec [.setUsedRuns 3, .getUsedRuns, .setUsedRuns 0]).arenaInv :=
  ⟨by decide,
    let ⟨l, hl, _, hops⟩ :=
      (arenaInv_of_guarded_ops 5 (by decide)).1 (fun _ => ⟨0, 0, 0, 0, 0, 0⟩)
    ⟨l, hl, hops [.setUsedRuns 3, .getUsedRuns, .setUsedRuns 0] (by
      intro k hk
      simp at hk
      omega)⟩⟩

/-- C10: a `RunList` constructed with capacity `C` reports `getMaxRuns() = C` after
every sequence of public operations (in particular of `setUsedRuns` calls), and its
stored runs are unchanged; `setUsedRuns(k)` gives `getUsedRuns() = k` (so
`setUsedRuns(0)` gives 0) and leaves the capacity and every stored run as they were.
The same holds for `RegionList`. -/
theorem capacity_fixed (C : Int) (hC : 0 ≤ C) :
    (∀ fresh, ∃ l, RunList.construct C fresh = some l ∧ l.getMaxRuns = C
        ∧ ∀ ops, (l.exec ops).getMaxRuns = C
            ∧ (l.exec ops).getRunArrayPointer = l.getRunArrayPointer)
      ∧ (∀ (l : RunList) (k : Int), (l.setUsedRuns k).getUsedRuns = k
          ∧ (l.setUsedRuns k).getMaxRuns = l.getMaxRuns
          ∧ (l.setUsedRuns k).getRunArrayPointer = l.getRunArrayPointer)
      ∧ (∀ l : RunList, (l.setUsedRuns 0).getUsedRuns = 0)
      ∧ (∀ fresh, ∃ l, RegionList.construct C fresh = some l ∧ l.getMaxRegions = C
          ∧ ∀ ops, (l.exec ops).getMaxRegions = C
              ∧ (l.exec ops).getRegionArrayPointer = l.getRegionArrayPointer)
      ∧ (∀ (l : RegionList) (k : Int), (l.setUsedRegions k).getUsedRegions = k
          ∧ (l.setUsedRegions k).getMaxRegions = l.getMaxRegions
          ∧ (l.setUsedRegions k).getRegionArrayPointer = l.getRegionArrayPointer)
      ∧ (∀ l : RegionList, (l.setUsedRegions 0).getUsedRegions = 0) := by
  refine ⟨fun fresh => ⟨_, RunList_construct_of_nonneg C hC fresh, rfl, fun ops => ?_⟩,
    fun _ _ => ⟨rfl, rfl, rfl⟩, fun _ => rfl,
    fun fresh => ⟨_, RegionList_construct_of_nonneg C hC fresh, rfl, fun ops => ?_⟩,
    fun _ _ => ⟨rfl, rfl, rfl⟩, fun _ => rfl⟩
  · exact RunList_exec_frame _ ops
  · exact RegionList_exec_frame _ ops

/-- Instance of C10: capacity 5, the used count set to 9 and then to 0. -/
theorem capacity_fixed_witness :
    (0 : Int) ≤ 5
      ∧ ∃ l, RunList.construct 5 (fun _ => ⟨0, 0, 0, 0, 0, 0⟩) = some l
          ∧ (l.exec [.setUsedRuns 9, .setUsedRuns 0]).getMaxRuns = 5 :=
  ⟨by decide,
    let ⟨l, hl, _, hops⟩ := (capacity_fixed 5 (by decide)).1 (fun _ => ⟨0, 0, 0, 0, 0, 0⟩)
    ⟨l, hl, (hops [.setUsedRuns 9, .setUsedRuns 0]).1⟩⟩

end CMVision

/-! ## Bounding box, list invariant, and further range-sum properties -/

namespace CMVision

theorem advance_null (h : Heap) (k : Nat) : advance h k none = none := by
  cases k <;> rfl

/-- Every region a terminating traversal visits is a member of the list. -/
theorem onChain_of_traverse (h : Heap) (fuel : Nat) (p : RegionPtr) (cs : List Nat)
    (ht : traverse h fuel p = some cs) (a : Nat) (ha : a ∈ cs) : onChain h p a := by
  induction fuel generalizing p cs with
  | zero =>
    cases p with
    | none =>
      simp only [traverse, Option.some.injEq] at ht
      subst ht
      exact absurd ha (List.not_mem_nil _)
    | some b => simp [traverse] at ht
  | succ n ih =>
    cases p with
    | none =>
      simp only [traverse, Option.some.injEq] at ht
      subst ht
      exact absurd ha (List.not_mem_nil _)
    | some b =>
      simp only [traverse, Option.map_eq_some'] at ht
      obtain ⟨ds, hds, rfl⟩ := ht
      rcases List.mem_cons.mp ha with e | m
      · exact ⟨0, by simp [advance, e]⟩
      · obtain ⟨k, hk⟩ := ih _ _ hds m
        exact ⟨k + 1, by simpa [advance] using hk⟩

/-- The regions on a chain that reaches null are pairwise distinct. -/
theorem traverse_nodup (h : Heap) (fuel : Nat) (p : RegionPtr) (cs : List Nat)
    (ht : traverse h fuel p = some cs) : cs.Nodup := by
  induction fuel generalizing p cs with
  | zero =>
    cases p with
    | none =>
      simp only [traverse, Option.some.injEq] at ht
      subst ht
      exact List.nodup_nil
    | some b => simp [traverse] at ht
  | succ n ih =>
    cases p with
    | none =>
      simp only [traverse, Option.some.injEq] at ht
      subst ht
      exact List.nodup_nil
    | some b =>
      simp only [traverse, Option.map_eq_some'] at ht
      obtain ⟨ds, hds, rfl⟩ := ht
      refine List.nodup_cons.mpr ⟨?_, ih _ _ hds⟩
      intro hb
      -- the chain from `b` would contain `b` again: it would be longer than itself
      have key : ∀ (m : Nat) (q : RegionPtr) (es : List Nat),
          traverse h m q = some es → b ∈ es →
            ∃ fs, traverse h (m + 1) (some b) = some fs ∧ fs.length ≤ es.length := by
        intro m
        induction m with
        | zero =>
          intro q es he hm
          cases q with
          | none =>
            simp only [traverse, Option.some.injEq] at he
            subst he
            exact absurd hm (List.not_mem_nil _)
          | some c => simp [traverse] at he
        | succ m ihm =>
          intro q es he hm
          cases q with
          | none =>
            simp only [traverse, Option.some.injEq] at he
            subst he
            exact absurd hm (List.not_mem_nil _)
          | some c =>
            have he2 := he
            simp only [traverse, Option.map_eq_some'] at he
            obtain ⟨gs, hgs, rfl⟩ := he
            rcases List.mem_cons.mp hm with e | m2
            · subst e
              exact ⟨b :: gs, traverse_mono h _ _ _ he2 1, le_refl _⟩
            · obtain ⟨fs, hfs, hlen⟩ := ihm _ _ hgs m2
              exact ⟨fs, traverse_mono h _ _ _ hfs 1, by simp; omega⟩
      obtain ⟨fs, hfs, hlen⟩ := key n _ ds hds hb
      have h1 : traverse h (n + 1) (some b) = some (b :: ds) := by
        simp [traverse, hds]
      rw [h1] at hfs
      have := Option.some.inj hfs
      subst this
      simp at hlen

end CMVision

namespace CMVision

/-- The count-equals-chain-length invariant survives every operation sequence whose
insertions are of regions outside the list. -/
theorem exec_chain_count (ops : List LinkedListOp) (s : Heap × RegionLinkedList)
    (hinv : ∃ cs, traverse s.1 cs.length s.2._first = some cs ∧ (cs.length : Int) = s.2._num)
    (hops : RegionLinkedList.freshInserts s ops) :
    ∃ cs, traverse (RegionLinkedList.exec s ops).1 cs.length
          (RegionLinkedList.exec s ops).2._first = some cs
        ∧ (cs.length : Int) = (RegionLinkedList.exec s ops).2._num := by
  induction ops generalizing s with
  | nil => exact hinv
  | cons op ops ih =>
    cases op with
    | reset =>
      exact ih (RegionLinkedList.step s .reset) ⟨[], rfl, rfl⟩ hops
    | insertFront r =>
      obtain ⟨hr, hrest⟩ := hops
      obtain ⟨cs, hcs, hnum⟩ := hinv
      have hmem : r ∉ cs := fun m => hr (onChain_of_traverse _ _ _ _ hcs r m)
      refine ih (RegionLinkedList.step s (.insertFront r)) ⟨r :: cs, ?_, ?_⟩ hrest
      · simp only [RegionLinkedList.step, RegionLinkedList.insertFront, List.length_cons,
          traverse, Function.update_same]
        rw [traverse_update s.1 r _ cs.length s.2._first cs hcs hmem]
        rfl
      · simp only [RegionLinkedList.step, RegionLinkedList.insertFront, List.length_cons]
        push_cast
        omega

/-- After `r->next = r` every step from `r` leads to `r` again. -/
theorem traverse_self_loop (h : Heap) (r : Nat) (hr : (h r).next = some r) (fuel : Nat) :
    traverse h fuel (some r) = none := by
  induction fuel with
  | zero => rfl
  | succ n ih => simp [traverse, hr, ih]

theorem advance_self_loop (h : Heap) (r : Nat) (hr : (h r).next = some r) (k : Nat) :
    advance h k (some r) = some r := by
  induction k with
  | zero => rfl
  | succ n ih => simpa [advance, hr] using ih

theorem wrap32_succ_wrap32 (v : Int) :
    CMVisionRegion.wrap32 (CMVisionRegion.wrap32 v + 1) = CMVisionRegion.wrap32 (v + 1) :=
  CMVisionRegion.wrap32_congr ((CMVisionRegion.wrap32_modEq v).add_right 1)

/-- C13, against the claim as stated: the region with `x1 = -1`, `x2 = 2^31 - 1` has
`x1 ≤ x2`, and `width()` is `-2147483647`: neither `x2 - x1 + 1` nor at least 1. -/
theorem Region_width_wraps :
    (Region.mk 0 (-1) 0 2147483647 0 0 0 0 0 0 none none).x1
        ≤ (Region.mk 0 (-1) 0 2147483647 0 0 0 0 0 0 none none).x2
      ∧ (Region.mk 0 (-1) 0 2147483647 0 0 0 0 0 0 none none).width = -2147483647
      ∧ (Region.mk 0 (-1) 0 2147483647 0 0 0 0 0 0 none none).width
          ≠ (Region.mk 0 (-1) 0 2147483647 0 0 0 0 0 0 none none).x2
            - (Region.mk 0 (-1) 0 2147483647 0 0 0 0 0 0 none none).x1 + 1
      ∧ ¬ 1 ≤ (Region.mk 0 (-1) 0 2147483647 0 0 0 0 0 0 none none).width := by
  decide

/-- C13, amended: for every `Region` for which `x2 - x1 + 1` is representable as a
32-bit `int`, `width() = x2 - x1 + 1`, and likewise `height() = y2 - y1 + 1` when
`y2 - y1 + 1` is representable; for the bounding box `(x0, y0, x0 + w - 1, y0)` of a
single run of width `w` (an `int`), `width() = w` and `height() = 1`; and for every
region with `x1 ≤ x2` and `y1 ≤ y2` and both extents representable, `width() ≥ 1`,
`height() ≥ 1` and the product of the two is the number of integer points `(x, y)`
with `x1 ≤ x ≤ x2` and `y1 ≤ y ≤ y2`. -/
theorem Region_width_height (r : Region) :
    (CMVisionRegion.inInt (r.x2 - r.x1 + 1) → r.width = r.x2 - r.x1 + 1)
      ∧ (CMVisionRegion.inInt (r.y2 - r.y1 + 1) → r.height = r.y2 - r.y1 + 1)
      ∧ (∀ x0 y0 w : Int, CMVisionRegion.inInt w →
          r.x1 = x0 → r.y1 = y0 → r.x2 = x0 + w - 1 → r.y2 = y0 →
            r.width = w ∧ r.height = 1)
      ∧ (r.x1 ≤ r.x2 → r.y1 ≤ r.y2 →
          CMVisionRegion.inInt (r.x2 - r.x1 + 1) → CMVisionRegion.inInt (r.y2 - r.y1 + 1) →
            1 ≤ r.width ∧ 1 ≤ r.height
              ∧ r.width * r.height
                  = ((Finset.Icc r.x1 r.x2 ×ˢ Finset.Icc r.y1 r.y2).card : Int)) := by
  have hw : CMVisionRegion.inInt (r.x2 - r.x1 + 1) → r.width = r.x2 - r.x1 + 1 := by
    intro hx
    unfold Region.width
    rw [wrap32_succ_wrap32, CMVisionRegion.wrap32_of_inInt hx]
  have hh : CMVisionRegion.inInt (r.y2 - r.y1 + 1) → r.height = r.y2 - r.y1 + 1 := by
    intro hy
    unfold Region.height
    rw [wrap32_succ_wrap32, CMVisionRegion.wrap32_of_inInt hy]
  refine ⟨hw, hh, ?_, ?_⟩
  · intro x0 y0 w hwin h1 h2 h3 h4
    have e1 : r.x2 - r.x1 + 1 = w := by omega
    have e2 : r.y2 - r.y1 + 1 = 1 := by omega
    refine ⟨?_, ?_⟩
    · rw [hw (by rw [e1]; exact hwin), e1]
    · rw [hh (by rw [e2]; decide), e2]
  · intro hx hy hxin hyin
    rw [hw hxin, hh hyin]
    refine ⟨by omega, by omega, ?_⟩
    rw [Finset.card_product, Int.card_Icc, Int.card_Icc]
    push_cast
    rw [Int.toNat_of_nonneg (by omega), Int.toNat_of_nonneg (by omega)]
    ring

/-- Instance of C13 (amended): the bounding box `(3, 5, 12, 5)` of a run of width 10
has width 10 and height 1, and covers 10 points. -/
theorem Region_width_height_witness :
    (3 : Int) ≤ 12 ∧ (5 : Int) ≤ 5
      ∧ CMVisionRegion.inInt (12 - 3 + 1) ∧ CMVisionRegion.inInt (5 - 5 + 1)
      ∧ (Region.mk 0 3 5 12 5 0 0 10 0 0 none none).width = 10
      ∧ (Region.mk 0 3 5 12 5 0 0 10 0 0 none none).width
          * (Region.mk 0 3 5 12 5 0 0 10 0 0 none none).height
          = ((Finset.Icc (3 : Int) 12 ×ˢ Finset.Icc (5 : Int) 5).card : Int) :=
  ⟨by decide, by decide, by decide, by decide,
    (Region_width_height (Region.mk 0 3 5 12 5 0 0 10 0 0 none none)).1 (by decide),
    ((Region_width_height (Region.mk 0 3 5 12 5 0 0 10 0 0 none none)).2.2.2
      (by decide) (by decide) (by decide) (by decide)).2.2⟩

/-- C14: for every sequence of `reset()` and `insertFront(r)` operations on a
(constructed) `RegionLinkedList` in which each inserted region is not a member of the
list at the time of its insertion, the chain from `getInitialElement()` along `next`
reaches null after finitely many steps, visits no region twice, and its length is
`getNumRegions()`. -/
theorem chain_length_eq_count (h : Heap) (l0 : RegionLinkedList) (ops : List LinkedListOp)
    (hops : RegionLinkedList.freshInserts (h, l0.construct) ops) :
    ∃ cs, traverse (RegionLinkedList.exec (h, l0.construct) ops).1 cs.length
          (RegionLinkedList.exec (h, l0.construct) ops).2.getInitialElement = some cs
        ∧ cs.Nodup
        ∧ (cs.length : Int)
            = (RegionLinkedList.exec (h, l0.construct) ops).2.getNumRegions := by
  obtain ⟨cs, hcs, hnum⟩ := exec_chain_count ops (h, l0.construct) ⟨[], rfl, rfl⟩ hops
  exact ⟨cs, hcs, traverse_nodup _ _ _ _ hcs, hnum⟩

/-- Instance of C14: insert region 4, reset, insert regions 4 and 2. -/
theorem chain_length_eq_count_witness :
    RegionLinkedList.freshInserts
        ((fun _ => ⟨0, 0, 0, 0, 0, 0, 0, 0, 0, 0, none, none⟩),
          (RegionLinkedList.mk (some 9) 5).construct)
        [.insertFront 4, .reset, .insertFront 4, .insertFront 2]
      ∧ ∃ cs, traverse
            (RegionLinkedList.exec
              ((fun _ => ⟨0, 0, 0, 0, 0, 0, 0, 0, 0, 0, none, none⟩),
                (RegionLinkedList.mk (some 9) 5).construct)
              [.insertFront 4, .reset, .insertFront 4, .insertFront 2]).1 cs.length
            (RegionLinkedList.exec
              ((fun _ => ⟨0, 0, 0, 0, 0, 0, 0, 0, 0, 0, none, none⟩),
                (RegionLinkedList.mk (some 9) 5).construct)
              [.insertFront 4, .reset, .insertFront 4, .insertFront 2]).2.getInitialElement
            = some cs
          ∧ cs.Nodup
          ∧ (cs.length : Int)
              = (RegionLinkedList.exec
                  ((fun _ => ⟨0, 0, 0, 0, 0, 0, 0, 0, 0, 0, none, none⟩),
                    (RegionLinkedList.mk (some 9) 5).construct)
                  [.insertFront 4, .reset, .insertFront 4, .insertFront 2]).2.getNumRegions :=
  have hfresh : RegionLinkedList.freshInserts
      ((fun _ => ⟨0, 0, 0, 0, 0, 0, 0, 0, 0, 0, none, none⟩),
        (RegionLinkedList.mk (some 9) 5).construct)
      [.insertFront 4, .reset, .insertFront 4, .insertFront 2] := by
    refine ⟨?_, ?_, ?_, trivial⟩
    · rintro ⟨k, hk⟩
      simp [RegionLinkedList.construct, RegionLinkedList.reset, advance_null] at hk
    · rintro ⟨k, hk⟩
      simp [RegionLinkedList.step, RegionLinkedList.reset, advance_null] at hk
    · rintro ⟨k, hk⟩
      rcases k with _ | _ | k <;>
        simp [RegionLinkedList.step, RegionLinkedList.insertFront, RegionLinkedList.reset,
          advance, advance_null] at hk
  ⟨hfresh, chain_length_eq_count _ _ _ hfresh⟩

/-- C15: for every non-empty list whose first element is `r`, `insertFront(r)` sets
`r.next = r`; afterwards every step from `getInitialElement()` leads to `r` again, so
the chain reaches null with no amount of fuel, while `getNumRegions()` is the finite
number `n + 1`: no chain length equals the count. -/
theorem insertFront_head_again (h : Heap) (l : RegionLinkedList) (r : Nat)
    (hr : l.getInitialElement = some r) :
    ((l.insertFront h r).1 r).next = some r
      ∧ (∀ k, advance (l.insertFront h r).1 k (l.insertFront h r).2.getInitialElement = some r)
      ∧ (∀ fuel,
          traverse (l.insertFront h r).1 fuel (l.insertFront h r).2.getInitialElement = none)
      ∧ (l.insertFront h r).2.getNumRegions = l.getNumRegions + 1
      ∧ ¬ ∃ cs, traverse (l.insertFront h r).1 cs.length
              (l.insertFront h r).2.getInitialElement = some cs
            ∧ (cs.length : Int) = (l.insertFront h r).2.getNumRegions := by
  have hnext : ((l.insertFront h r).1 r).next = some r := by
    simpa [RegionLinkedList.insertFront, RegionLinkedList.getInitialElement] using hr
  have htr := traverse_self_loop _ r hnext
  refine ⟨hnext, advance_self_loop _ r hnext, htr, rfl, ?_⟩
  rintro ⟨cs, hcs, -⟩
  have h2 := htr cs.length
  change traverse (l.insertFront h r).1 cs.length (some r) = some cs at hcs
  rw [h2] at hcs
  exact absurd hcs (by simp)

/-- Instance of C15: the list `4 → null` with count 1, and region 4 inserted again. -/
theorem insertFront_head_again_witness :
    (RegionLinkedList.mk (some 4) 1).getInitialElement = some 4
      ∧ (((RegionLinkedList.mk (some 4) 1).insertFront
            (fun _ => ⟨0, 0, 0, 0, 0, 0, 0, 0, 0, 0, none, none⟩) 4).1 4).next = some 4
      ∧ ((RegionLinkedList.mk (some 4) 1).insertFront
            (fun _ => ⟨0, 0, 0, 0, 0, 0, 0, 0, 0, 0, none, none⟩) 4).2.getNumRegions = 2 :=
  ⟨rfl,
    (insertFront_head_again (fun _ => ⟨0, 0, 0, 0, 0, 0, 0, 0, 0, 0, none, none⟩)
      (RegionLinkedList.mk (some 4) 1) 4 rfl).1,
    (insertFront_head_again (fun _ => ⟨0, 0, 0, 0, 0, 0, 0, 0, 0, 0, none, none⟩)
      (RegionLinkedList.mk (some 4) 1) 4 rfl).2.2.2.1⟩

end CMVision

namespace CMVisionRegion

/-- C16: with 32-bit wraparound arithmetic, for every 32-bit `x` and `w ≥ 0` such that
`x + w` fits in 32 bits and six times the exact sum of `i * i` over `x ≤ i ≤ x + w - 1`
is at most `2^31 - 1`, `rangeSumSq` returns the exact sum of squares, also where the
cubic terms overflow: at `x = 1024`, `w = 1` the cubic term of `y = 1025` is not
representable and the result is `1048576`. -/
theorem rangeSumSq32_robust (x w : Int) (_hx : inInt x) (_hw : inInt w) (hw0 : 0 ≤ w)
    (_hxw : inInt (x + w))
    (h6 : 6 * ∑ i ∈ Finset.Icc x (x + w - 1), i * i ≤ INT_MAX) :
    rangeSumSq32 x w = ∑ i ∈ Finset.Icc x (x + w - 1), i * i
      ∧ ¬ inInt ((1024 + 1) * (1024 + 1 - 1) * (2 * (1024 + 1) - 1))
      ∧ rangeSumSq32 1024 1 = 1048576 := by
  refine ⟨?_, by decide, by decide⟩
  rw [rangeSumSq32_eq_iff x w hw0]
  have hs : 0 ≤ ∑ i ∈ Finset.Icc x (x + w - 1), i * i :=
    Finset.sum_nonneg (fun i _ => mul_self_nonneg i)
  refine ⟨?_, h6⟩
  unfold INT_MIN
  omega

/-- Instance of C16 at `x = 1024`, `w = 1`. -/
theorem rangeSumSq32_robust_witness :
    inInt 1024 ∧ inInt 1 ∧ (0 : Int) ≤ 1 ∧ inInt (1024 + 1)
      ∧ 6 * ∑ i ∈ Finset.Icc (1024 : Int) (1024 + 1 - 1), i * i ≤ INT_MAX
      ∧ rangeSumSq32 1024 1 = ∑ i ∈ Finset.Icc (1024 : Int) (1024 + 1 - 1), i * i :=
  ⟨by decide, by decide, by decide, by decide, by decide,
    (rangeSumSq32_robust 1024 1 (by decide) (by decide) (by decide) (by decide)
      (by decide)).1⟩

/-- C17: over unbounded integers, for every integer `x` and all `a ≥ 0`, `b ≥ 0`,
`rangeSum x (a + b) = rangeSum x a + rangeSum (x + a) b` and
`rangeSumSq x (a + b) = rangeSumSq x a + rangeSumSq (x + a) b`. -/
theorem rangeSum_additive (x a b : Int) (ha : 0 ≤ a) (hb : 0 ≤ b) :
    rangeSum x (a + b) = rangeSum x a + rangeSum (x + a) b
      ∧ rangeSumSq x (a + b) = rangeSumSq x a + rangeSumSq (x + a) b := by
  have hab : 0 ≤ a + b := by omega
  have e1 := two_mul_sum_Icc_int x (a + b) hab
  have e2 := two_mul_sum_Icc_int x a ha
  have e3 := two_mul_sum_Icc_int (x + a) b hb
  have f1 := six_mul_sumSq_Icc_int x (a + b) hab
  have f2 := six_mul_sumSq_Icc_int x a ha
  have f3 := six_mul_sumSq_Icc_int (x + a) b hb
  rw [rangeSum_eq_aux x (a + b) hab, rangeSum_eq_aux x a ha, rangeSum_eq_aux (x + a) b hb,
    rangeSumSq_eq_aux x (a + b) hab, rangeSumSq_eq_aux x a ha, rangeSumSq_eq_aux (x + a) b hb]
  constructor
  · have : 2 * ∑ i ∈ Finset.Icc x (x + (a + b) - 1), i
        = 2 * (∑ i ∈ Finset.Icc x (x + a - 1), i
            + ∑ i ∈ Finset.Icc (x + a) (x + a + b - 1), i) := by
      rw [mul_add, e1, e2, e3]
      ring
    omega
  · have : 6 * ∑ i ∈ Finset.Icc x (x + (a + b) - 1), i * i
        = 6 * (∑ i ∈ Finset.Icc x (x + a - 1), i * i
            + ∑ i ∈ Finset.Icc (x + a) (x + a + b - 1), i * i) := by
      rw [mul_add, f1, f2, f3]
      ring
    omega

/-- Instance of C17: the span of 7 from `-3`, split after 4. -/
theorem rangeSum_additive_witness :
    (0 : Int) ≤ 4 ∧ (0 : Int) ≤ 3
      ∧ rangeSum (-3) (4 + 3) = rangeSum (-3) 4 + rangeSum (-3 + 4) 3
      ∧ rangeSumSq (-3) (4 + 3) = rangeSumSq (-3) 4 + rangeSumSq (-3 + 4) 3 :=
  ⟨by decide, by decide, rangeSum_additive (-3) 4 3 (by decide) (by decide)⟩

end CMVisionRegion

/-! ## Region sorter -/

namespace CMVisionRegion

open CMVision

theorem mergeByArea_nil_right (h : Heap) (xs : List Nat) : mergeByArea h xs [] = xs := by
  cases xs <;> rfl

theorem mergeByArea_cons_cons (h : Heap) (x : Nat) (xs : List Nat) (y : Nat) (ys : List Nat) :
    mergeByArea h (x :: xs) (y :: ys)
      = if (h y).area ≤ (h x).area then x :: mergeByArea h xs (y :: ys)
        else y :: mergeByArea h (x :: xs) ys := by
  simp only [mergeByArea, mergeInto]

/-- The merge of two runs is a rearrangement of their concatenation. -/
theorem mergeByArea_perm (h : Heap) (xs ys : List Nat) :
    (mergeByArea h xs ys).Perm (xs ++ ys) := by
  induction xs generalizing ys with
  | nil => exact List.Perm.refl _
  | cons x xs ihx =>
    induction ys with
    | nil => rw [mergeByArea_nil_right, List.append_nil]
    | cons y ys ihy =>
      rw [mergeByArea_cons_cons]
      split
      · exact (ihx (y :: ys)).cons x
      · exact ((ihy.cons y).trans (List.perm_middle.symm))

/-- The merge of two runs in non-increasing order of area is in that order. -/
theorem mergeByArea_sorted (h : Heap) (xs ys : List Nat) (hx : areaSorted h xs)
    (hy : areaSorted h ys) : areaSorted h (mergeByArea h xs ys) := by
  induction xs generalizing ys with
  | nil => exact hy
  | cons x xs ihx =>
    induction ys with
    | nil => rw [mergeByArea_nil_right]; exact hx
    | cons y ys ihy =>
      rw [mergeByArea_cons_cons]
      unfold areaSorted at hx hy ihx ihy ⊢
      obtain ⟨hx1, hx2⟩ := List.pairwise_cons.mp hx
      obtain ⟨hy1, hy2⟩ := List.pairwise_cons.mp hy
      split
      · rename_i hle
        refine List.pairwise_cons.mpr ⟨?_, ihx (y :: ys) hx2 hy⟩
        intro b hb
        rcases List.mem_append.mp ((mergeByArea_perm h xs (y :: ys)).subset hb) with m | m
        · exact hx1 b m
        · rcases List.mem_cons.mp m with e | m2
          · rw [e]; exact hle
          · exact le_trans (hy1 b m2) hle
      · rename_i hlt
        have hlt2 : (h x).area ≤ (h y).area := by omega
        refine List.pairwise_cons.mpr ⟨?_, ihy hy2⟩
        intro b hb
        rcases List.mem_append.mp ((mergeByArea_perm h (x :: xs) ys).subset hb) with m | m
        · rcases List.mem_cons.mp m with e | m2
          · rw [e]; exact hlt2
          · exact le_trans (hx1 b m2) hlt2
        · exact hy1 b m

theorem mergeByArea_length (h : Heap) (xs ys : List Nat) :
    (mergeByArea h xs ys).length = xs.length + ys.length := by
  rw [(mergeByArea_perm h xs ys).length_eq, List.length_append]

theorem mergeRuns_join_perm (h : Heap) (rs : List (List Nat)) :
    (mergeRuns h rs).flatten.Perm rs.flatten := by
  induction rs using mergeRuns.induct h with
  | case1 a b rest ih =>
    simp only [mergeRuns, List.flatten_cons]
    rw [← List.append_assoc]
    exact (mergeByArea_perm h a b).append ih
  | case2 rs hne =>
    unfold mergeRuns
    split
    · exact absurd rfl (hne _ _ _)
    · exact List.Perm.refl _

theorem mergeRuns_sorted (h : Heap) (rs : List (List Nat))
    (hs : ∀ r ∈ rs, areaSorted h r) : ∀ r ∈ mergeRuns h rs, areaSorted h r := by
  induction rs using mergeRuns.induct h with
  | case1 a b rest ih =>
    intro r hr
    simp only [mergeRuns, List.mem_cons] at hr
    rcases hr with e | m
    · rw [e]
      exact mergeByArea_sorted h a b (hs a (by simp)) (hs b (by simp))
    · exact ih (fun r hr => hs r (by simp [hr])) r m
  | case2 rs hne =>
    unfold mergeRuns
    split
    · exact absurd rfl (hne _ _ _)
    · exact hs

theorem mergeRuns_eq_nil (h : Heap) (rs : List (List Nat)) (hn : mergeRuns h rs = []) :
    rs = [] := by
  match rs, hn with
  | [], _ => rfl
  | [r], hn => simp [mergeRuns] at hn
  | a :: b :: rest, hn => simp [mergeRuns] at hn

theorem mergeRuns_width (h : Heap) (w : Nat) (rs : List (List Nat))
    (hw : runsOfWidth w rs) : runsOfWidth (2 * w) (mergeRuns h rs) := by
  induction rs using mergeRuns.induct h with
  | case1 a b rest ih =>
    simp only [mergeRuns]
    obtain ⟨ha, hb⟩ := hw
    cases rest with
    | nil =>
      simp only [mergeRuns, runsOfWidth, mergeByArea_length] at hb ⊢
      omega
    | cons c rest2 =>
      obtain ⟨hb1, hrest⟩ := hb
      have ih2 := ih hrest
      cases hm : mergeRuns h (c :: rest2) with
      | nil => exact absurd (mergeRuns_eq_nil h _ hm) (by simp)
      | cons d ds =>
        rw [hm] at ih2
        exact ⟨by rw [mergeByArea_length]; omega, ih2⟩
  | case2 rs hne =>
    unfold mergeRuns
    split
    · exact absurd rfl (hne _ _ _)
    · match rs, hw, hne with
      | [], _, _ => trivial
      | [r], hw, _ =>
        simp only [runsOfWidth] at hw ⊢
        omega
      | a :: b :: rest, _, hne => exact absurd rfl (hne _ _ _)

theorem sortPasses_spec (h : Heap) (p : Nat) (w : Nat) (rs : List (List Nat))
    (hs : ∀ r ∈ rs, areaSorted h r) (hw : runsOfWidth w rs) :
    (sortPasses h p rs).flatten.Perm rs.flatten
      ∧ (∀ r ∈ sortPasses h p rs, areaSorted h r)
      ∧ runsOfWidth (2 ^ p * w) (sortPasses h p rs) := by
  induction p generalizing w rs with
  | zero => exact ⟨List.Perm.refl _, hs, by simpa using hw⟩
  | succ p ih =>
    obtain ⟨h1, h2, h3⟩ := ih (2 * w) (mergeRuns h rs) (mergeRuns_sorted h rs hs)
      (mergeRuns_width h w rs hw)
    refine ⟨h1.trans (mergeRuns_join_perm h rs), h2, ?_⟩
    rw [show 2 ^ (p + 1) * w = 2 ^ p * (2 * w) by ring]
    exact h3

/-- Single regions are runs of length 1, each of them sorted. -/
theorem singletons_runs (h : Heap) (xs : List Nat) :
    (∀ r ∈ xs.map (fun x => [x]), areaSorted h r)
      ∧ runsOfWidth 1 (xs.map (fun x => [x]))
      ∧ (xs.map (fun x => [x])).flatten = xs := by
  refine ⟨?_, ?_, ?_⟩
  · intro r hr
    obtain ⟨x, -, rfl⟩ := List.mem_map.mp hr
    exact List.pairwise_singleton _ _
  · induction xs with
    | nil => trivial
    | cons x xs ih =>
      cases xs with
      | nil => exact ⟨by simp, by simp⟩
      | cons y ys => exact ⟨rfl, ih⟩
  · induction xs with
    | nil => rfl
    | cons x xs ih => simp [ih]

/-- With runs of width `w`, each block of `w` consecutive regions of the whole
sequence, counted from the front, lies inside one run. -/
theorem block_sorted (h : Heap) (w : Nat) (rs : List (List Nat))
    (hs : ∀ r ∈ rs, areaSorted h r) (hw : runsOfWidth w rs) (k : Nat) :
    areaSorted h ((rs.flatten.drop (k * w)).take w) := by
  induction rs generalizing k with
  | nil => simp [areaSorted]
  | cons r rest ih =>
    cases rest with
    | nil =>
      have hr : areaSorted h r := hs r (by simp)
      simp only [List.flatten_cons, List.flatten_nil, List.append_nil]
      exact List.Pairwise.sublist
        ((List.take_sublist _ _).trans (List.drop_sublist _ _)) hr
    | cons s rest2 =>
      obtain ⟨hlen, hrest⟩ := hw
      have hs2 : ∀ q ∈ s :: rest2, areaSorted h q := fun q hq => hs q (by simp [hq])
      cases k with
      | zero =>
        simp only [Nat.zero_mul, List.drop_zero, List.flatten_cons]
        rw [← hlen, List.take_left]
        exact hs r (by simp)
      | succ k =>
        have e : (k + 1) * w = r.length + k * w := by rw [hlen]; ring
        rw [List.flatten_cons, e, List.drop_append]
        exact ih hs2 hrest k

/-! ### Linking the chain again -/

theorem relink_head (h : Heap) (xs : List Nat) : (relink h xs).2 = xs.head? := by
  cases xs <;> rfl

/-- The new links change no area. -/
theorem relink_area (h : Heap) (xs : List Nat) (a : Nat) :
    ((relink h xs).1 a).area = (h a).area := by
  induction xs with
  | nil => rfl
  | cons x xs ih =>
    simp only [relink]
    by_cases e : a = x
    · subst e
      simp [Function.update_same, ih]
    · simp [Function.update_noteq e, ih]

/-- Along the new links the chain visits the given regions in the given order and then
reaches null. -/
theorem relink_traverse (h : Heap) (xs : List Nat) (hnd : xs.Nodup) :
    CMVision.traverse (relink h xs).1 xs.length (relink h xs).2 = some xs := by
  induction xs with
  | nil => rfl
  | cons x xs ih =>
    obtain ⟨hx, hnd2⟩ := List.nodup_cons.mp hnd
    simp only [relink, List.length_cons, CMVision.traverse, Function.update_same]
    rw [traverse_update _ x _ xs.length _ xs (ih hnd2) hx]
    rfl

theorem areaSorted_congr (h h2 : Heap) (he : ∀ a, (h2 a).area = (h a).area) (xs : List Nat)
    (hs : areaSorted h xs) : areaSorted h2 xs := by
  unfold areaSorted at hs ⊢
  exact hs.imp (fun {a b} hab => by rw [he a, he b]; exact hab)

end CMVisionRegion

namespace CMVisionRegion

open CMVision

/-- C12: for every linked list of `n` regions (the chain from `list` reaches null),
`sortRegionListByArea(list, passes)` returns a list that is a rearrangement of the
input and, when `passes ≥ ceil(log2(n))`, is in non-increasing order of area; with any
number of passes, each block of `2^passes` consecutive regions of the result, counted
from the front, is in non-increasing order of area. The areas are not changed. -/
theorem sortRegionListByArea_passes (h : Heap) (list : RegionPtr) (passes : Int)
    (fuel : Nat) (xs : List Nat) (hl : CMVision.traverse h fuel list = some xs) :
    ∃ h2 p2 ys, sortRegionListByArea h list passes fuel = some (h2, p2)
      ∧ CMVision.traverse h2 ys.length p2 = some ys
      ∧ ys.Perm xs
      ∧ (∀ a, (h2 a).area = (h a).area)
      ∧ ((Nat.clog 2 xs.length : Int) ≤ passes → areaSorted h2 ys)
      ∧ (∀ k, areaSorted h2
          ((ys.drop (k * 2 ^ passes.toNat)).take (2 ^ passes.toNat))) := by
  obtain ⟨hs1, hw1, hflat⟩ := singletons_runs h xs
  obtain ⟨hperm, hsorted, hwidth⟩ :=
    sortPasses_spec h passes.toNat 1 (xs.map (fun x => [x])) hs1 hw1
  rw [hflat, Nat.mul_one] at *
  have hperm2 : (sortedOrder h passes.toNat xs).Perm xs := hperm
  have hnd : (sortedOrder h passes.toNat xs).Nodup :=
    hperm2.nodup_iff.mpr (traverse_nodup h fuel list xs hl)
  have hblock : ∀ k, areaSorted h
      (((sortedOrder h passes.toNat xs).drop (k * 2 ^ passes.toNat)).take
        (2 ^ passes.toNat)) :=
    fun k => block_sorted h _ _ hsorted hwidth k
  have harea := relink_area h (sortedOrder h passes.toNat xs)
  refine ⟨(relink h (sortedOrder h passes.toNat xs)).1,
    (relink h (sortedOrder h passes.toNat xs)).2, sortedOrder h passes.toNat xs, ?_,
    relink_traverse h _ hnd, hperm2, harea, ?_, ?_⟩
  · simp [sortRegionListByArea, hl]
  · intro hp
    have hp2 : Nat.clog 2 xs.length ≤ passes.toNat := by omega
    have hlen : (sortedOrder h passes.toNat xs).length ≤ 2 ^ passes.toNat := by
      rw [hperm2.length_eq]
      exact (Nat.le_pow_iff_clog_le (by decide)).mpr hp2
    have h0 := hblock 0
    rw [Nat.zero_mul, List.drop_zero, List.take_of_length_le hlen] at h0
    exact areaSorted_congr h _ harea _ h0
  · intro k
    exact areaSorted_congr h _ harea _ (hblock k)

/-- Instance of C12: the list `3 → 2 → 1 → 0` with areas 7, 1, 9, 5 and two passes. -/
theorem sortRegionListByArea_passes_witness :
    CMVision.traverse
        (fun a => ⟨0, 0, 0, 0, 0, 0, 0,
          if a = 3 then 7 else if a = 2 then 1 else if a = 1 then 9 else 5, 0, 0,
          if a = 0 then none else some (a - 1), none⟩)
        4 (some 3) = some [3, 2, 1, 0]
      ∧ ∃ h2 p2 ys,
          sortRegionListByArea
              (fun a => ⟨0, 0, 0, 0, 0, 0, 0,
                if a = 3 then 7 else if a = 2 then 1 else if a = 1 then 9 else 5, 0, 0,
                if a = 0 then none else some (a - 1), none⟩)
              (some 3) 2 4 = some (h2, p2)
            ∧ CMVision.traverse h2 ys.length p2 = some ys
            ∧ ys.Perm [3, 2, 1, 0]
            ∧ (((Nat.clog 2 [3, 2, 1, 0].length : Nat) : Int) ≤ 2 → areaSorted h2 ys) :=
  ⟨by decide,
    let ⟨h2, p2, ys, e, ht, hp, _, hs, _⟩ :=
      sortRegionListByArea_passes
        (fun a => ⟨0, 0, 0, 0, 0, 0, 0,
          if a = 3 then 7 else if a = 2 then 1 else if a = 1 then 9 else 5, 0, 0,
          if a = 0 then none else some (a - 1), none⟩)
        (some 3) 2 4 [3, 2, 1, 0] (by decide)
    ⟨h2, p2, ys, e, ht, hp, hs⟩⟩

end CMVisionRegion

/-! ## Colour partitioner -/

namespace CMVisionRegion

open CMVision

theorem runningMax_append (as : List Int) (a : Int) :
    runningMax (as ++ [a]) = some (match runningMax as with
      | none => a
      | some v => max v a) := by
  simp [runningMax, List.foldl_append]

/-- The running maximum of a non-empty list is one of its elements and bounds all of
them. -/
theorem runningMax_spec (as : List Int) :
    (as = [] → runningMax as = none)
      ∧ (as ≠ [] → ∃ v, runningMax as = some v ∧ v ∈ as ∧ ∀ a ∈ as, a ≤ v) := by
  induction as using List.reverseRecOn with
  | nil => exact ⟨fun _ => rfl, fun hne => absurd rfl hne⟩
  | append_singleton as a ih =>
    refine ⟨fun e => absurd e (by simp), fun _ => ?_⟩
    rw [runningMax_append]
    by_cases hnil : as = []
    · subst hnil
      refine ⟨a, ?_, by simp, ?_⟩
      · simp [runningMax]
      · intro b hb
        simp at hb
        omega
    · obtain ⟨v, hv, hmem, hmax⟩ := ih.2 hnil
      rw [hv]
      refine ⟨max v a, rfl, ?_, ?_⟩
      · rcases le_total v a with hva | hva
        · rw [max_eq_right hva]; simp
        · rw [max_eq_left hva]; simp [hmem]
      · intro b hb
        rcases List.mem_append.mp hb with m1 | m1
        · exact le_trans (hmax b m1) (le_max_left _ _)
        · simp at m1
          rw [m1]
          exact le_max_right _ _

theorem mem_of_mem_filter_reverse (p : Nat → Bool) (done : List Nat) (i : Nat)
    (hi : i ∉ done) : i ∉ (done.filter p).reverse := by
  intro hm
  exact hi (List.mem_of_mem_filter (List.mem_reverse.mp hm))

/-- One region more keeps the state of the partitioner as described. -/
theorem separateStep_partitioned (h0 : Heap) (m : Int) (n : Nat) (done : List Nat)
    (s : Heap × List RegionLinkedList × Option Int) (i : Nat)
    (hinv : partitioned h0 m n done s) (hi : i ∉ done)
    (hc : m ≤ (h0 i).area → (h0 i).color < n) :
    ∃ s2, separateStep m s i = some s2 ∧ partitioned h0 m n (done ++ [i]) s2 := by
  obtain ⟨hfields, hlen, hb, hmx⟩ := hinv
  obtain ⟨ha, hcl⟩ := hfields i
  by_cases hq : m ≤ (h0 i).area
  · have hcn := hc hq
    obtain ⟨b0, hb0, htr0, hnum0⟩ := hb (h0 i).color hcn
    refine ⟨((b0.insertFront s.1 i).1,
        s.2.1.set (h0 i).color (b0.insertFront s.1 i).2,
        some (match s.2.2 with
          | none => (h0 i).area
          | some v => max v (h0 i).area)), ?_, ?_, ?_, ?_, ?_⟩
    · unfold separateStep
      rw [if_pos (by rw [ha]; exact hq), hcl, hb0, ha]
    · intro a
      by_cases e : a = i
      · subst e
        simp [RegionLinkedList.insertFront, hfields a]
      · simp [RegionLinkedList.insertFront, Function.update_noteq e, hfields a]
    · simp [hlen]
    · intro c hcc
      by_cases e : c = (h0 i).color
      · subst e
        refine ⟨(b0.insertFront s.1 i).2, ?_, ?_, ?_⟩
        · simp only
          rw [List.getElem?_set_self (by rw [hlen]; exact hcn)]
        · have hqi : qualifies h0 m (h0 i).color i = true := by simp [qualifies, hq]
          simp only [List.filter_append, List.filter_cons, hqi, if_true, List.filter_nil,
            List.length_append, List.length_singleton, List.reverse_append,
            List.reverse_singleton, List.singleton_append]
          simp only [RegionLinkedList.insertFront, CMVision.traverse, Function.update_same]
          rw [traverse_update s.1 i _ _ b0._first _ htr0
            (mem_of_mem_filter_reverse _ done i hi)]
          rfl
        · have hqi : qualifies h0 m (h0 i).color i = true := by simp [qualifies, hq]
          simp only [List.filter_append, List.filter_cons, hqi, if_true, List.filter_nil,
            List.length_append, List.length_singleton, RegionLinkedList.insertFront]
          rw [hnum0]
          push_cast
          ring
      · obtain ⟨b, hbc, htr, hnum⟩ := hb c hcc
        have hqi : qualifies h0 m c i = false := by
          simp only [qualifies, Bool.and_eq_false_iff, decide_eq_false_iff_not]
          exact Or.inr (fun e2 => e e2.symm)
        refine ⟨b, ?_, ?_, ?_⟩
        · simp only
          rw [List.getElem?_set_ne (fun e2 => e e2.symm)]
          exact hbc
        · simp only [List.filter_append, List.filter_cons, hqi, List.filter_nil,
            List.append_nil, Bool.false_eq_true, if_false]
          simp only [RegionLinkedList.insertFront]
          exact traverse_update s.1 i _ _ b._first _ htr
            (mem_of_mem_filter_reverse _ done i hi)
        · simp only [List.filter_append, List.filter_cons, hqi, List.filter_nil,
            List.append_nil, Bool.false_eq_true, if_false]
          exact hnum
    · have hqi : decide (m ≤ (h0 i).area) = true := by simp [hq]
      simp only [List.filter_append, List.filter_cons, hqi, if_true, List.filter_nil,
        List.map_append, List.map_cons, List.map_nil]
      rw [runningMax_append, ← hmx]
  · refine ⟨s, ?_, hfields, hlen, ?_, ?_⟩
    · unfold separateStep
      rw [if_neg (by rw [ha]; exact hq)]
    · intro c hcc
      have hqi : qualifies h0 m c i = false := by
        simp only [qualifies, Bool.and_eq_false_iff, decide_eq_false_iff_not]
        exact Or.inl hq
      simp only [List.filter_append, List.filter_cons, hqi, List.filter_nil,
        List.append_nil, Bool.false_eq_true, if_false]
      exact hb c hcc
    · have hqi : decide (m ≤ (h0 i).area) = false := by simp [hq]
      simp only [List.filter_append, List.filter_cons, hqi, List.filter_nil,
        List.append_nil, Bool.false_eq_true, if_false]
      exact hmx

/-- The partitioner over a list of regions not seen before keeps the state as
described. -/
theorem separateLoop_partitioned (h0 : Heap) (m : Int) (n : Nat) (is : List Nat) :
    ∀ (done : List Nat) (s : Heap × List RegionLinkedList × Option Int),
      partitioned h0 m n done s → is.Nodup → (∀ i ∈ is, i ∉ done) →
      (∀ i ∈ is, m ≤ (h0 i).area → (h0 i).color < n) →
      ∃ s2, separateLoop m is s = some s2 ∧ partitioned h0 m n (done ++ is) s2 := by
  induction is with
  | nil =>
    intro done s hinv _ _ _
    exact ⟨s, rfl, by rw [List.append_nil]; exact hinv⟩
  | cons i is ih =>
    intro done s hinv hnd hdisj hcol
    obtain ⟨hi, hnd2⟩ := List.nodup_cons.mp hnd
    obtain ⟨s1, hs1, hinv1⟩ := separateStep_partitioned h0 m n done s i hinv
      (hdisj i (List.mem_cons_self _ _)) (hcol i (List.mem_cons_self _ _))
    have hdisj2 : ∀ j ∈ is, j ∉ done ++ [i] := by
      intro j hj hm
      rcases List.mem_append.mp hm with m1 | m1
      · exact hdisj j (List.mem_cons_of_mem _ hj) m1
      · simp at m1
        exact hi (m1 ▸ hj)
    obtain ⟨s2, hs2, hinv2⟩ := ih (done ++ [i]) s1 hinv1 hnd2 hdisj2
      (fun j hj => hcol j (List.mem_cons_of_mem _ hj))
    refine ⟨s2, ?_, ?_⟩
    · simp only [separateLoop, hs1, Option.some_bind]
      exact hs2
    · rw [List.append_assoc] at hinv2
      exact hinv2

end CMVisionRegion

namespace CMVisionRegion

open CMVision

/-- C11: for every `RegionList` and every threshold `m`, starting from empty buckets
(and with a bucket for the colour of every region that passes the filter, the
precondition of the partitioner), `separateRegions` returns; bucket `c` of the output
is a null-terminated chain, of the length that its count gives, of exactly the used
regions with `area ≥ m` and colour `c`, last inserted first; and the returned value is
the maximum area among the inserted regions, `0` if no region passes the filter. -/
theorem separateRegions_partition (colorlist : ColorRegionList) (reglist : RegionList)
    (h0 : Heap) (m : Int)
    (hempty : ∀ b ∈ colorlist.getColorRegionArrayPointer,
      b.getInitialElement = none ∧ b.getNumRegions = 0)
    (hcol : ∀ i, i < reglist.getUsedRegions.toNat →
      m ≤ (regionMemory reglist h0 i).area →
        (regionMemory reglist h0 i).color < colorlist.getColorRegionArrayPointer.length) :
    ∃ h2 c2 mx, separateRegions colorlist reglist h0 m = some (h2, c2, mx)
      ∧ (∀ a, (h2 a).area = (regionMemory reglist h0 a).area
          ∧ (h2 a).color = (regionMemory reglist h0 a).color)
      ∧ c2.getColorRegionArrayPointer.length = colorlist.getColorRegionArrayPointer.length
      ∧ (∀ c, c < colorlist.getColorRegionArrayPointer.length →
          ∃ b cs, c2.getColorRegionArrayPointer[c]? = some b
            ∧ CMVision.traverse h2 cs.length b.getInitialElement = some cs
            ∧ (cs.length : Int) = b.getNumRegions
            ∧ cs = ((List.range reglist.getUsedRegions.toNat).filter
                (qualifies (regionMemory reglist h0) m c)).reverse
            ∧ ∀ i, i ∈ cs ↔ (i < reglist.getUsedRegions.toNat
                ∧ m ≤ (regionMemory reglist h0 i).area
                ∧ (regionMemory reglist h0 i).color = c))
      ∧ ((∀ i, i < reglist.getUsedRegions.toNat → ¬ m ≤ (regionMemory reglist h0 i).area) →
          mx = 0)
      ∧ (∀ j, j < reglist.getUsedRegions.toNat → m ≤ (regionMemory reglist h0 j).area →
          (∃ i, i < reglist.getUsedRegions.toNat ∧ m ≤ (regionMemory reglist h0 i).area
              ∧ (regionMemory reglist h0 i).area = mx)
            ∧ ∀ i, i < reglist.getUsedRegions.toNat →
                m ≤ (regionMemory reglist h0 i).area →
                  (regionMemory reglist h0 i).area ≤ mx) := by
  have hinit : partitioned (regionMemory reglist h0) m
      colorlist.getColorRegionArrayPointer.length []
      (regionMemory reglist h0, colorlist.getColorRegionArrayPointer, none) := by
    refine ⟨fun a => ⟨rfl, rfl⟩, rfl, ?_, rfl⟩
    intro c hc
    refine ⟨colorlist.getColorRegionArrayPointer[c], List.getElem?_eq_getElem hc, ?_, ?_⟩
    · have := (hempty _ (List.getElem_mem hc)).1
      simp only [RegionLinkedList.getInitialElement] at this
      simp [this, CMVision.traverse]
    · have := (hempty _ (List.getElem_mem hc)).2
      simpa [RegionLinkedList.getNumRegions] using this
  obtain ⟨s2, hs2, hfields, hlen, hb, hmx⟩ :=
    separateLoop_partitioned (regionMemory reglist h0) m
      colorlist.getColorRegionArrayPointer.length
      (List.range reglist.getUsedRegions.toNat) [] _ hinit (List.nodup_range _)
      (fun _ _ => List.not_mem_nil _)
      (fun i hi => hcol i (List.mem_range.mp hi))
  rw [List.nil_append] at hb hmx
  have hspec := runningMax_spec
    (((List.range reglist.getUsedRegions.toNat).filter
      (fun i => decide (m ≤ (regionMemory reglist h0 i).area))).map
      (fun i => (regionMemory reglist h0 i).area))
  rw [← hmx] at hspec
  refine ⟨s2.1, { colorlist with color_regions := s2.2.1 }, s2.2.2.getD 0, ?_, hfields,
    hlen, ?_, ?_, ?_⟩
  · simp [separateRegions, hs2]
  · intro c hc
    obtain ⟨b, hbc, htr, hnum⟩ := hb c hc
    refine ⟨b, _, hbc, ?_, ?_, rfl, ?_⟩
    · rw [List.length_reverse]
      exact htr
    · rw [List.length_reverse]
      exact hnum.symm
    · intro i
      simp only [List.mem_reverse, List.mem_filter, List.mem_range, qualifies,
        Bool.and_eq_true, decide_eq_true_eq]
  · intro hnone
    have hnil : ((List.range reglist.getUsedRegions.toNat).filter
        (fun i => decide (m ≤ (regionMemory reglist h0 i).area))).map
        (fun i => (regionMemory reglist h0 i).area) = [] := by
      rw [List.map_eq_nil_iff, List.filter_eq_nil_iff]
      intro i hi
      simpa using hnone i (List.mem_range.mp hi)
    rw [hspec.1 hnil]
    rfl
  · intro j hj hqj
    have hne : ((List.range reglist.getUsedRegions.toNat).filter
        (fun i => decide (m ≤ (regionMemory reglist h0 i).area))).map
        (fun i => (regionMemory reglist h0 i).area) ≠ [] := by
      intro e
      rw [List.map_eq_nil_iff, List.filter_eq_nil_iff] at e
      exact e j (List.mem_range.mpr hj) (by simpa using hqj)
    obtain ⟨v, hv, hmem, hmax⟩ := hspec.2 hne
    rw [hv]
    simp only [Option.getD_some]
    constructor
    · obtain ⟨i, hi, rfl⟩ := List.mem_map.mp hmem
      rw [List.mem_filter, List.mem_range] at hi
      exact ⟨i, hi.1, by simpa using hi.2, rfl⟩
    · intro i hi hqi
      apply hmax
      exact List.mem_map.mpr ⟨i, List.mem_filter.mpr
        ⟨List.mem_range.mpr hi, by simpa using hqi⟩, rfl⟩

/-- Instance of C11: three used regions of areas 4, 9, 2 and colours 1, 0, 1, two empty
buckets, threshold 3. -/
theorem separateRegions_partition_witness :
    (∀ b ∈ (ColorRegionList.mk [⟨none, 0⟩, ⟨none, 0⟩] 2).getColorRegionArrayPointer,
        b.getInitialElement = none ∧ b.getNumRegions = 0)
      ∧ ∃ h2 c2 mx,
          separateRegions (ColorRegionList.mk [⟨none, 0⟩, ⟨none, 0⟩] 2)
            (RegionList.mk
              [⟨1, 0, 0, 3, 0, 0, 0, 4, 0, 0, none, none⟩,
               ⟨0, 0, 1, 8, 1, 0, 0, 9, 0, 0, none, none⟩,
               ⟨1, 0, 2, 1, 2, 0, 0, 2, 0, 0, none, none⟩] 3 3)
            (fun _ => ⟨0, 0, 0, 0, 0, 0, 0, 0, 0, 0, none, none⟩) 3 = some (h2, c2, mx) :=
  ⟨by simp [ColorRegionList.getColorRegionArrayPointer,
      RegionLinkedList.getInitialElement, RegionLinkedList.getNumRegions],
    let ⟨h2, c2, mx, e, _⟩ :=
      separateRegions_partition (ColorRegionList.mk [⟨none, 0⟩, ⟨none, 0⟩] 2)
        (RegionList.mk
          [⟨1, 0, 0, 3, 0, 0, 0, 4, 0, 0, none, none⟩,
           ⟨0, 0, 1, 8, 1, 0, 0, 9, 0, 0, none, none⟩,
           ⟨1, 0, 2, 1, 2, 0, 0, 2, 0, 0, none, none⟩] 3 3)
        (fun _ => ⟨0, 0, 0, 0, 0, 0, 0, 0, 0, 0, none, none⟩) 3
        (by simp [ColorRegionList.getColorRegionArrayPointer,
          RegionLinkedList.getInitialElement, RegionLinkedList.getNumRegions])
        (by
          intro i hi _
          have hi3 : i < 3 := hi
          interval_cases i <;>
            simp [regionMemory, ColorRegionList.getColorRegionArrayPointer])
    ⟨h2, c2, mx, e⟩⟩

end CMVisionRegion
